import Mathlib

/-! LexerV1 relational engine (`Relation.cpp`): shallow embedding and verification.

The C++ class `Relation` holds a name, a scheme (`Tuple`, a vector of strings) and a
`std::set<Tuple>` of rows.  The embedding keeps that shape:

* `Tuple` is `List String`;
* `std::set<T>` is `StdSet T`, an ascending duplicate-free list ordered by the strict
  order `StdLess.lt` (for vectors and strings the lexicographic comparison that
  `std::less` performs), so that iterating a set is iterating the list and
  `operator==` on sets is equality of the element sequences;
* a checked access `v.at(i)` is `vecAt` / `vecSetAt` and fails with `none` when the index
  is out of range; every member function that performs such an access returns `Option`;
* `size_t` arithmetic that can wrap is explicit: `getColumnCount() - 1` is `sizePred`
  (it wraps to `2 ^ 64 - 1` at zero) and the conversion of the `int` result of
  `indexForColumnInScheme` to `size_t` is `intToSize` (a negative value wraps modulo
  `2 ^ 64`);
* loop counters of type `unsigned int` and the `int` result of
  `indexForColumnInTuple` are natural numbers / integers: schemes are taken to have fewer
  than `2 ^ 31` columns, where those conversions are exact.

`Relation.h` and the class `Tuple` are not among the sources; `Tuple::combinedWith` is
modelled from the specification text.
-/

namespace LexerV1

/-! ## Ordering used by `std::set` -/

/-- Strict total order playing the role of `std::less` for the keys of a `std::set`. -/
class StdLess (α : Type) where
  /-- The comparison `a < b`. -/
  lt : α → α → Bool
  /-- No element is below itself. -/
  irrefl : ∀ a, lt a a = false
  /-- The comparison is transitive. -/
  trans : ∀ a b c, lt a b = true → lt b c = true → lt a c = true
  /-- Two elements neither of which is below the other are equal. -/
  tri : ∀ a b, lt a b = false → lt b a = false → a = b

/-- Lexicographic comparison (`std::lexicographical_compare`), the `operator<` of
`std::vector` and of `std::string`. -/
def lexLt {α : Type} (lt : α → α → Bool) : List α → List α → Bool
  | _, [] => false
  | [], _ :: _ => true
  | a :: as, b :: bs =>
    if lt a b then true
    else if lt b a then false
    else lexLt lt as bs

theorem lexLt_irrefl {α : Type} (lt : α → α → Bool) (hi : ∀ a, lt a a = false) :
    ∀ l : List α, lexLt lt l l = false
  | [] => rfl
  | a :: as => by simp [lexLt, hi, lexLt_irrefl lt hi as]

theorem lexLt_tri {α : Type} (lt : α → α → Bool)
    (ht : ∀ a b, lt a b = false → lt b a = false → a = b) :
    ∀ l m : List α, lexLt lt l m = false → lexLt lt m l = false → l = m
  | [], [] => fun _ _ => rfl
  | [], _ :: _ => fun h _ => by simp [lexLt] at h
  | _ :: _, [] => fun _ h => by simp [lexLt] at h
  | a :: as, b :: bs => fun h1 h2 => by
    simp only [lexLt] at h1 h2
    cases hab : lt a b <;> cases hba : lt b a <;> simp [hab, hba] at h1 h2
    rw [ht a b hab hba, lexLt_tri lt ht as bs h1 h2]

theorem lexLt_trans {α : Type} (lt : α → α → Bool)
    (htr : ∀ a b c, lt a b = true → lt b c = true → lt a c = true)
    (ht : ∀ a b, lt a b = false → lt b a = false → a = b) :
    ∀ l m n : List α, lexLt lt l m = true → lexLt lt m n = true → lexLt lt l n = true
  | _, [], _ => fun h _ => by cases ‹List α› <;> simp [lexLt] at h
  | _, _ :: _, [] => fun _ h => by simp [lexLt] at h
  | [], _ :: _, _ :: _ => fun _ _ => by simp [lexLt]
  | a :: as, b :: bs, c :: cs => fun h1 h2 => by
    simp only [lexLt] at h1 h2 ⊢
    cases hab : lt a b
    · cases hba : lt b a
      · have e := ht a b hab hba
        subst e
        simp only [hab] at h1
        simp at h1
        cases hac : lt a c
        · cases hca : lt c a
          · simp [hac, hca] at h2 ⊢
            exact lexLt_trans lt htr ht as bs cs h1 h2
          · simp [hac, hca] at h2
        · simp
      · simp [hab, hba] at h1
    · cases hbc : lt b c
      · cases hcb : lt c b
        · have e := ht b c hbc hcb
          subst e
          simp [hab]
        · simp [hbc, hcb] at h2
      · simp [htr a b c hab hbc]

/-- Characters compare by code point (for UTF-8 text the same order as comparing the
bytes of a `std::string`). -/
instance instStdLessChar : StdLess Char where
  lt a b := decide (a.toNat < b.toNat)
  irrefl a := by simp
  trans a b c h1 h2 := by
    simp only [decide_eq_true_eq] at *
    omega
  tri a b h1 h2 := by
    simp only [decide_eq_false_iff_not] at *
    apply Char.ext
    apply UInt32.ext
    show a.toNat = b.toNat
    omega

/-- Strings compare lexicographically, as `std::string::operator<` does. -/
instance instStdLessString : StdLess String where
  lt a b := lexLt StdLess.lt a.data b.data
  irrefl a := lexLt_irrefl _ StdLess.irrefl a.data
  trans a b c := lexLt_trans _ StdLess.trans StdLess.tri a.data b.data c.data
  tri a b h1 h2 := String.ext (lexLt_tri _ StdLess.tri a.data b.data h1 h2)

/-- Vectors compare lexicographically, as `std::vector::operator<` does. -/
instance instStdLessList {α : Type} [StdLess α] : StdLess (List α) where
  lt a b := lexLt StdLess.lt a b
  irrefl a := lexLt_irrefl _ StdLess.irrefl a
  trans a b c := lexLt_trans _ StdLess.trans StdLess.tri a b c
  tri a b h1 h2 := lexLt_tri _ StdLess.tri a b h1 h2

/-! ## `std::set` -/

/-- Insertion of a key into an ascending list: the key goes before the first larger
element and is dropped when an equivalent element is already there. -/
def insertSorted {α : Type} [StdLess α] (x : α) : List α → List α
  | [] => [x]
  | y :: ys =>
    if StdLess.lt x y then x :: y :: ys
    else if StdLess.lt y x then y :: insertSorted x ys
    else y :: ys

theorem mem_insertSorted {α : Type} [StdLess α] (x a : α) :
    ∀ l : List α, a ∈ insertSorted x l ↔ a = x ∨ a ∈ l
  | [] => by simp [insertSorted]
  | y :: ys => by
    unfold insertSorted
    cases hxy : StdLess.lt x y
    · cases hyx : StdLess.lt y x
      · have e : x = y := StdLess.tri x y hxy hyx
        subst e
        simp
      · simp [mem_insertSorted x a ys]
        tauto
    · simp

theorem pairwise_insertSorted {α : Type} [StdLess α] (x : α) :
    ∀ l : List α, l.Pairwise (fun a b => StdLess.lt a b = true) →
      (insertSorted x l).Pairwise (fun a b => StdLess.lt a b = true)
  | [] => fun _ => by simp [insertSorted]
  | y :: ys => fun h => by
    unfold insertSorted
    have hy := List.pairwise_cons.mp h
    cases hxy : StdLess.lt x y
    · cases hyx : StdLess.lt y x
      · simpa using h
      · simp only [Bool.false_eq_true, if_false, if_true]
        refine List.pairwise_cons.mpr ⟨?_, pairwise_insertSorted x ys hy.2⟩
        intro a ha
        rcases (mem_insertSorted x a ys).mp ha with e | hmem
        · rw [e]
          exact hyx
        · exact hy.1 a hmem
    · simp only [if_true]
      refine List.pairwise_cons.mpr ⟨?_, h⟩
      intro a ha
      rcases List.mem_cons.mp ha with e | hmem
      · rw [e]
        exact hxy
      · exact StdLess.trans x y a hxy (hy.1 a hmem)

/-- The container `std::set<α>`: its elements in ascending order, without repetition. -/
structure StdSet (α : Type) [StdLess α] where
  /-- The elements in iteration order. -/
  elems : List α
  /-- The elements are strictly ascending. -/
  sorted : elems.Pairwise (fun a b => StdLess.lt a b = true)

namespace StdSet

variable {α : Type} [StdLess α]

/-- The empty set, `std::set<α>()`. -/
def empty : StdSet α := ⟨[], List.Pairwise.nil⟩

/-- Member function `insert`. -/
def insert (s : StdSet α) (x : α) : StdSet α :=
  ⟨insertSorted x s.elems, pairwise_insertSorted x s.elems s.sorted⟩

/-- Member function `size`. -/
def size (s : StdSet α) : Nat := s.elems.length

instance instMembership : Membership α (StdSet α) where
  mem s a := a ∈ s.elems

end StdSet

/-! ## Tuples -/

/-- The class `Tuple`, a `std::vector<std::string>`. -/
abbrev Tuple := List String

/-- Checked read `v.at(i)`; `none` stands for the `std::out_of_range` failure. -/
def vecAt (v : Tuple) (i : Nat) : Option String := v[i]?

/-- Checked write `v.at(i) = x`; `none` stands for the `std::out_of_range` failure. -/
def vecSetAt (v : Tuple) (i : Nat) (x : String) : Option Tuple :=
  if i < v.length then some (v.set i x) else none

/-- Modelled from the spec: `Tuple::combinedWith` is declared with the class `Tuple`,
which is not among the sources.  The result is the receiver followed by the columns of
the argument that are not already present, in the argument's order, without
duplicates. -/
def Tuple.combinedWith (self other : Tuple) : Tuple :=
  other.foldl (fun acc c => if c ∈ acc then acc else acc ++ [c]) self

/-- The value of `n - 1` in `size_t` arithmetic: at `n = 0` it wraps around to
`2 ^ 64 - 1`. -/
def sizePred (n : Nat) : Nat := if 0 < n then n - 1 else (n + 2 ^ 64 - 1) % 2 ^ 64

/-- Conversion of an `int` to `size_t`: a non-negative value is kept and a negative one
wraps around modulo `2 ^ 64`. -/
def intToSize (i : Int) : Nat := if 0 ≤ i then i.toNat else (i % 2 ^ 64).toNat

/-! ## Relations -/

/-- The class `Relation`. -/
structure Relation where
  /-- Field `name`. -/
  name : String
  /-- Field `scheme`. -/
  scheme : Tuple
  /-- Field `contents`. -/
  contents : StdSet Tuple

namespace Relation

/-- Constructor `Relation(name, scheme)`: no rows. -/
def new (name : String) (scheme : Tuple) : Relation :=
  { name := name, scheme := scheme, contents := StdSet.empty }

/-- Member `getColumnCount`. -/
def getColumnCount (self : Relation) : Nat := self.scheme.length

/-- Member `addTuple`: the returned flag and the relation afterwards. -/
def addTuple (self : Relation) (element : Tuple) : Bool × Relation :=
  if element.length ≠ self.getColumnCount then (false, self)
  else (true, { self with contents := self.contents.insert element })

/-- Member `listContents`. -/
def listContents (self : Relation) : List Tuple :=
  self.contents.elems.foldl (fun result t => result ++ [t]) []

/-- One iteration of the loop of `rename(Tuple)`. -/
def renameStep (scheme newScheme : Tuple) (state : Tuple × StdSet String) (col : Nat) :
    Option (Tuple × StdSet String) := do
  let oldVal ← vecAt scheme col
  let newVal ← vecAt newScheme col
  if newVal ≠ "" then
    let resultScheme ← vecSetAt state.1 col newVal
    pure (resultScheme, state.2.insert newVal)
  else
    pure (state.1, state.2.insert oldVal)

/-- Member `rename(Tuple newScheme)`. -/
def rename (self : Relation) (newScheme : Tuple) : Option Relation :=
  if newScheme.length ≠ self.scheme.length ∨ newScheme = self.scheme then some self
  else do
    let state ← (List.range newScheme.length).foldlM (renameStep self.scheme newScheme)
      (self.scheme, StdSet.empty)
    if state.2.size = state.1.length then
      pure { name := self.name, scheme := state.1, contents := self.contents }
    else
      pure self

/-- Loop of `rename(oldCol, newCol)` over the column positions. -/
def renameColLoop (oldCol newCol : String) (newScheme : Tuple) (i : Nat) : Option Tuple := do
  let x ← vecAt newScheme i
  if x = oldCol then vecSetAt newScheme i newCol else pure newScheme

/-- Member `rename(oldCol, newCol)`. -/
def renameCol (self : Relation) (oldCol newCol : String) : Option Relation := do
  let newScheme ← (List.range self.scheme.length).foldlM (renameColLoop oldCol newCol)
    self.scheme
  self.rename newScheme

/-- Inner loop of value selection: `isMatch` after running through the queries, with
the `continue` for an index out of range and the `break` at the first mismatch. -/
def valueMatch (columnCount : Nat) (t : Tuple) : List (Nat × String) → Option Bool
  | [] => some true
  | query :: rest =>
    if query.1 ≥ columnCount then valueMatch columnCount t rest
    else do
      let x ← vecAt t query.1
      if x ≠ query.2 then pure false else valueMatch columnCount t rest

/-- Member `select(std::vector<std::pair<size_t, std::string>>)`. -/
def select (self : Relation) (queries : List (Nat × String)) : Option Relation :=
  self.contents.elems.foldlM (fun result t => do
    let isMatch ← valueMatch result.getColumnCount t queries
    pure (if isMatch then (result.addTuple t).2 else result))
    (Relation.new self.name self.scheme)

/-- Inner loop of equivalence selection for one tuple: `hasMatch` after running through
the columns of the class, `val` being the value remembered so far (initially the
sentinel `"LexerV1.INVALID"`). -/
def equivMatch (columnCount : Nat) (t : Tuple) : List Nat → String → Option Bool
  | [], _ => some true
  | col :: rest, val =>
    if col ≥ columnCount then equivMatch columnCount t rest val
    else do
      let val ← if val = "LexerV1.INVALID" then vecAt t col else pure val
      let x ← vecAt t col
      if x ≠ val then pure false else equivMatch columnCount t rest val

/-- Loop of equivalence selection over the classes, with the `break` at an empty
class. -/
def selectEquivLoop (self : Relation) : List (List Nat) → Relation → Option Relation
  | [], result => some result
  | query :: rest, result =>
    if query.isEmpty then some { result with contents := self.contents }
    else do
      let result ← self.contents.elems.foldlM (fun result t => do
        let hasMatch ← equivMatch result.getColumnCount t query "LexerV1.INVALID"
        pure (if hasMatch then (result.addTuple t).2 else result)) result
      selectEquivLoop self rest result

/-- Member `select(std::vector<std::vector<size_t>>)`. -/
def selectEquiv (self : Relation) (queries : List (List Nat)) : Option Relation :=
  selectEquivLoop self queries (Relation.new self.name self.scheme)

/-- Member `vectorContainsValue`. -/
def vectorContainsValue (domain : List String) (query : String) : Bool :=
  match domain with
  | [] => false
  | val :: rest => if val = query then true else vectorContainsValue rest query

/-- Member `stripExtraColsFromScheme`, returning the new value of its reference
argument. -/
def stripExtraColsFromScheme (self : Relation) (otherScheme : Tuple) : Tuple :=
  if otherScheme.isEmpty then otherScheme
  else
    let dirtyScheme := otherScheme
    let otherScheme := dirtyScheme.foldl
      (fun acc col => if !vectorContainsValue acc col then acc ++ [col] else acc) []
    otherScheme.foldl
      (fun result col => if vectorContainsValue self.scheme col then result ++ [col] else result) []

/-- Loop of `indexForColumnInTuple` over the positions still to visit. -/
def indexLoop (col : String) (domain : Tuple) : List Nat → Option Int
  | [] => some (-1)
  | i :: rest => do
    let x ← vecAt domain i
    if x = col then pure (i : Int) else indexLoop col domain rest

/-- Member `indexForColumnInTuple`. -/
def indexForColumnInTuple (col : String) (domain : Tuple) : Option Int :=
  indexLoop col domain (List.range domain.length)

/-- Member `indexForColumnInScheme`. -/
def indexForColumnInScheme (self : Relation) (col : String) : Option Int :=
  indexForColumnInTuple col self.scheme

/-- Exchange of the entries at two positions of a vector through checked accesses. -/
def swapAt (v : Tuple) (oldCol newCol : Nat) : Option Tuple := do
  let val ← vecAt v oldCol
  let x ← vecAt v newCol
  let v ← vecSetAt v oldCol x
  vecSetAt v newCol val

/-- Member `swapColumns`, returning the relation afterwards. -/
def swapColumns (self : Relation) (oldCol newCol : Nat) : Option Relation :=
  let oldCol := if oldCol ≥ self.getColumnCount then sizePred self.getColumnCount else oldCol
  let newCol := if newCol ≥ self.getColumnCount then sizePred self.getColumnCount else newCol
  if oldCol = newCol then some self
  else do
    let scheme ← swapAt self.scheme oldCol newCol
    let reordered ← self.contents.elems.foldlM (fun (reordered : StdSet Tuple) t => do
      let t ← swapAt t oldCol newCol
      pure (reordered.insert t)) StdSet.empty
    pure { self with scheme := scheme, contents := reordered }

/-- Member `keepOnlyColumnsUntil`, returning the relation afterwards. -/
def keepOnlyColumnsUntil (self : Relation) (col : Nat) : Relation :=
  if col ≥ self.getColumnCount then self
  else
    let scheme := self.scheme.take col
    let stripped := self.contents.elems.foldl
      (fun (stripped : StdSet Tuple) t => stripped.insert (t.take col)) StdSet.empty
    let stripped :=
      if stripped.size = 1 ∧ (stripped.elems.head?.map List.isEmpty) = some true
      then StdSet.empty else stripped
    { self with scheme := scheme, contents := stripped }

/-- One iteration of the loop of `project`. -/
def projectStep (newScheme : Tuple) (result : Relation) (newIndex : Nat) : Option Relation := do
  let col ← vecAt newScheme newIndex
  let index ← result.indexForColumnInScheme col
  let oldIndex := intToSize index
  result.swapColumns oldIndex newIndex

/-- Member `project`. -/
def project (self : Relation) (scheme : Tuple) : Option Relation := do
  let newScheme := self.stripExtraColsFromScheme scheme
  let result ← (List.range newScheme.length).foldlM (projectStep newScheme) self
  pure (result.keepOnlyColumnsUntil newScheme.length)

/-- One iteration of the loop of `stringForTuple`. -/
def stringStep (self : Relation) (tuple : Tuple) (result : String) (i : Nat) : Option String := do
  let col ← vecAt self.scheme i
  let val ← vecAt tuple i
  let result := result ++ col ++ "=" ++ val
  pure (if i < sizePred self.scheme.length then result ++ ", " else result)

/-- Member `stringForTuple`. -/
def stringForTuple (self : Relation) (tuple : Tuple) : Option String :=
  if tuple.length ≠ self.getColumnCount then some ""
  else (List.range tuple.length).foldlM (stringStep self tuple) ""

/-- One iteration of the column loop of `joinedWith`: the state is the tuple `combined`
and the flag `isValid`. -/
def joinColumn (self other : Relation) (t1 t2 : Tuple) (state : Tuple × Bool) (colIdx : Nat) :
    Option (Tuple × Bool) := do
  let col ← vecAt state.1 colIdx
  let index1 ← self.indexForColumnInScheme col
  let index2 ← other.indexForColumnInScheme col
  let val1 ← (if index1 ≥ 0 then vecAt t1 index1.toNat else some "")
  let val2 ← (if index2 ≥ 0 then vecAt t2 index2.toNat else some "")
  let combined ←
    (if (val1 = val2 ∧ val1 ≠ "") ∨ (val1 ≠ "" ∧ val2 = "")
      then vecSetAt state.1 colIdx val1 else some state.1)
  let combined ←
    (if (val1 = val2 ∧ val2 ≠ "") ∨ (val2 ≠ "" ∧ val1 = "")
      then vecSetAt combined colIdx val2 else some combined)
  let isValid := if val1 ≠ val2 ∧ val1 ≠ "" ∧ val2 ≠ "" then false else state.2
  pure (combined, isValid)

/-- Body of the two nested loops of `joinedWith` for one pair of tuples. -/
def joinPair (self other : Relation) (newScheme : Tuple) (t1 : Tuple) (result : Relation)
    (t2 : Tuple) : Option Relation := do
  let state ← (List.range newScheme.length).foldlM (joinColumn self other t1 t2)
    (newScheme, true)
  pure (if state.2 then (result.addTuple state.1).2 else result)

/-- Member `joinedWith`. -/
def joinedWith (self other : Relation) : Option Relation :=
  if self.name = other.name ∧ self.scheme = other.scheme ∧
      self.contents.elems = other.contents.elems then some self
  else
    let newScheme := Tuple.combinedWith self.scheme other.scheme
    self.contents.elems.foldlM (fun result t1 =>
      other.contents.elems.foldlM (joinPair self other newScheme t1) result)
      (Relation.new self.name newScheme)

/-- Member `unionWith`. -/
def unionWith (self other : Relation) : Relation :=
  if other.scheme ≠ self.scheme then Relation.new self.name self.scheme
  else
    let result := Relation.new self.name self.scheme
    let result := self.contents.elems.foldl (fun result t => (result.addTuple t).2) result
    other.contents.elems.foldl (fun result t => (result.addTuple t).2) result

/-- Member `operator==`. -/
def eq (self other : Relation) : Bool :=
  decide (self.name = other.name) && decide (self.scheme = other.scheme) &&
    decide (self.contents.elems = other.contents.elems)

/-- Member `operator!=`. -/
def ne (self other : Relation) : Bool := !(self.eq other)

/-- The list `v` with the entries at positions `i` and `j` exchanged (unchanged when a
position is out of range). -/
def listSwap {α : Type} (v : List α) (i j : Nat) : List α :=
  match v[i]?, v[j]? with
  | some a, some b => (v.set i b).set j a
  | _, _ => v

/-- A list with duplicates removed, the first occurrence of each value kept. -/
def dedupFirst : List String → List String
  | [] => []
  | x :: xs => x :: (dedupFirst xs).filter (fun y => y ≠ x)

/-- The cleaned target scheme of a projection, in the specification's words: the target
with duplicates removed (first occurrence kept) and then with every name that is not a
column of the relation removed. -/
def cleanedScheme (scheme target : Tuple) : Tuple :=
  (dedupFirst target).filter (fun x => x ∈ scheme)

/-- The value a tuple `t` laid out by `scheme` holds at the column named `col`, and the
empty string when `scheme` has no such column: what `joinedWith` reads into `val1` and
`val2`. -/
def colVal (scheme t : Tuple) (col : String) : String :=
  if col ∈ scheme then (t[scheme.indexOf col]?).getD "" else ""

/-- The pair of tuples `t1`, `t2` is in conflict at the column `col`: both hold a
non-empty value there and the values differ. -/
def joinConflict (s1 s2 t1 t2 : Tuple) (col : String) : Prop :=
  colVal s1 t1 col ≠ colVal s2 t2 col ∧ colVal s1 t1 col ≠ "" ∧ colVal s2 t2 col ≠ ""

instance instDecidableJoinConflict (s1 s2 t1 t2 : Tuple) (col : String) :
    Decidable (joinConflict s1 s2 t1 t2 col) :=
  inferInstanceAs (Decidable (colVal s1 t1 col ≠ colVal s2 t2 col ∧ colVal s1 t1 col ≠ "" ∧
    colVal s2 t2 col ≠ ""))

/-- The value of the combined tuple at the column `col` for a pair without conflict:
the left value when it is non-empty, else the right value when that is non-empty, else
the column name that the combined tuple was initialised with. -/
def joinedValue (s1 s2 t1 t2 : Tuple) (col : String) : String :=
  if colVal s1 t1 col ≠ "" then colVal s1 t1 col
  else if colVal s2 t2 col ≠ "" then colVal s2 t2 col
  else col

/-- The tuple `t` satisfies the equivalence class `cols`, in the specification's words:
all indices of the class that are in range (below the column count `n`) hold one and the
same value in `t`. -/
def sameValueAt (n : Nat) (t : Tuple) (cols : List Nat) : Prop :=
  ∀ a ∈ cols, ∀ b ∈ cols, a < n → b < n → t[a]? = t[b]?

instance instDecidableSameValueAt (n : Nat) (t : Tuple) (cols : List Nat) :
    Decidable (sameValueAt n t cols) :=
  inferInstanceAs (Decidable (∀ a ∈ cols, ∀ b ∈ cols, a < n → b < n → t[a]? = t[b]?))

/-- The merged scheme of a rename, in the specification's words: position by position
the replacement name where that is non-empty, else the existing name. -/
def mergedScheme (scheme replacement : Tuple) : Tuple :=
  List.zipWith (fun old new => if new ≠ "" then new else old) scheme replacement

/-- Well-formedness: every stored tuple has as many values as the scheme has columns. -/
def WellFormed (self : Relation) : Prop :=
  ∀ t ∈ self.contents.elems, t.length = self.scheme.length

instance instDecidableWellFormed (self : Relation) : Decidable self.WellFormed :=
  inferInstanceAs (Decidable (∀ t ∈ self.contents.elems, t.length = self.scheme.length))

/-- A relation built the way client code builds one: the constructor followed by
`addTuple` for each row. -/
def ofRows (name : String) (scheme : Tuple) (rows : List Tuple) : Relation :=
  rows.foldl (fun r t => (r.addTuple t).2) (Relation.new name scheme)

end Relation

/-! ## Facts about `std::set` -/

namespace StdSet

variable {α : Type} [StdLess α]

theorem mem_def (s : StdSet α) (a : α) : a ∈ s ↔ a ∈ s.elems := Iff.rfl

theorem mem_insert (s : StdSet α) (x a : α) : a ∈ (s.insert x).elems ↔ a = x ∨ a ∈ s.elems :=
  mem_insertSorted x a s.elems

theorem ext_elems {s t : StdSet α} (h : s.elems = t.elems) : s = t := by
  cases s
  cases t
  simp only at h
  subst h
  rfl

theorem nodup_of_sorted {l : List α} (h : l.Pairwise (fun a b => StdLess.lt a b = true)) :
    l.Nodup := by
  refine List.Pairwise.imp ?_ h
  intro a b hab e
  rw [e, StdLess.irrefl] at hab
  exact Bool.false_ne_true hab

theorem sorted_ext {l m : List α} (hl : l.Pairwise (fun a b => StdLess.lt a b = true))
    (hm : m.Pairwise (fun a b => StdLess.lt a b = true)) (h : ∀ a, a ∈ l ↔ a ∈ m) : l = m := by
  have hperm : l.Perm m := (List.perm_ext_iff_of_nodup (nodup_of_sorted hl) (nodup_of_sorted hm)).mpr h
  have anti : IsAntisymm α (fun a b => StdLess.lt a b = true) := by
    constructor
    intro a b hab hba
    have := StdLess.trans a b a hab hba
    rw [StdLess.irrefl] at this
    exact absurd this Bool.false_ne_true
  exact List.eq_of_perm_of_sorted hperm hl hm

theorem ext {s t : StdSet α} (h : ∀ a, a ∈ s.elems ↔ a ∈ t.elems) : s = t :=
  ext_elems (sorted_ext s.sorted t.sorted h)

theorem insert_of_mem (s : StdSet α) (x : α) (h : x ∈ s.elems) : s.insert x = s := by
  apply ext
  intro a
  rw [mem_insert]
  constructor
  · rintro (e | h')
    · rw [e]
      exact h
    · exact h'
  · exact Or.inr

theorem mem_foldl_insert {β : Type} (f : β → α) (a : α) :
    ∀ (l : List β) (s : StdSet α),
      a ∈ (l.foldl (fun acc t => acc.insert (f t)) s).elems ↔ a ∈ s.elems ∨ ∃ t ∈ l, f t = a
  | [], s => by simp
  | b :: l, s => by
    rw [List.foldl_cons, mem_foldl_insert f a l, mem_insert]
    constructor
    · rintro ((e | h) | ⟨t, ht, e⟩)
      · exact Or.inr ⟨b, List.mem_cons_self _ _, e.symm⟩
      · exact Or.inl h
      · exact Or.inr ⟨t, List.mem_cons_of_mem _ ht, e⟩
    · rintro (h | ⟨t, ht, e⟩)
      · exact Or.inl (Or.inr h)
      · rcases List.mem_cons.mp ht with e' | ht'
        · subst e'
          exact Or.inl (Or.inl e.symm)
        · exact Or.inr ⟨t, ht', e⟩

end StdSet

namespace Relation

/-! ## `addTuple` and the loops that insert rows -/

theorem addTuple_of_length (r : Relation) (t : Tuple) (h : t.length = r.scheme.length) :
    r.addTuple t = (true, { r with contents := r.contents.insert t }) := by
  simp [addTuple, getColumnCount, h]

theorem addTuple_of_length_ne (r : Relation) (t : Tuple) (h : t.length ≠ r.scheme.length) :
    r.addTuple t = (false, r) := by
  simp [addTuple, getColumnCount, h]

theorem foldl_addTuple (l : List Tuple) :
    ∀ (r : Relation), (∀ t ∈ l, t.length = r.scheme.length) →
      l.foldl (fun r t => (r.addTuple t).2) r =
        { r with contents := l.foldl (fun acc t => acc.insert t) r.contents } := by
  induction l with
  | nil => intro r _; rfl
  | cons t l ih =>
    intro r h
    rw [List.foldl_cons, List.foldl_cons, addTuple_of_length r t (h t (List.mem_cons_self _ _))]
    exact ih _ (fun u hu => h u (List.mem_cons_of_mem _ hu))

theorem mem_foldl_insert_id (a : Tuple) (l : List Tuple) (s : StdSet Tuple) :
    a ∈ (l.foldl (fun acc t => acc.insert t) s).elems ↔ a ∈ s.elems ∨ a ∈ l := by
  have h := StdSet.mem_foldl_insert (fun t : Tuple => t) a l s
  simpa using h

/-! ## C5: `addTuple` -/

/-- C5. `addTuple(t)` returns true exactly when `t` has as many values as the relation has
columns.  On false the relation is unchanged.  On true name and scheme are unchanged and
the content set is the old one with `t` added; when `t` was already present the content
set is unchanged. -/
theorem addTuple_spec (R : Relation) (t : Tuple) :
    ((R.addTuple t).1 = true ↔ t.length = R.getColumnCount) ∧
    ((R.addTuple t).1 = false → (R.addTuple t).2 = R) ∧
    ((R.addTuple t).1 = true →
      (R.addTuple t).2.name = R.name ∧ (R.addTuple t).2.scheme = R.scheme ∧
      (∀ u, u ∈ (R.addTuple t).2.contents ↔ u = t ∨ u ∈ R.contents) ∧
      (t ∈ R.contents → (R.addTuple t).2.contents = R.contents)) := by
  by_cases h : t.length = R.scheme.length
  · rw [addTuple_of_length R t h]
    refine ⟨by simp [getColumnCount, h], by simp, fun _ => ⟨rfl, rfl, ?_, ?_⟩⟩
    · intro u
      exact StdSet.mem_insert R.contents t u
    · intro ht
      exact StdSet.insert_of_mem R.contents t ht
  · rw [addTuple_of_length_ne R t h]
    simp [getColumnCount, h]

/-! ## C6, C7, C8: `unionWith` -/

theorem unionWith_of_scheme_ne (A B : Relation) (h : B.scheme ≠ A.scheme) :
    A.unionWith B = Relation.new A.name A.scheme := by
  simp [unionWith, h]

theorem unionWith_of_scheme_eq (A B : Relation) (hA : A.WellFormed) (hB : B.WellFormed)
    (h : B.scheme = A.scheme) :
    A.unionWith B = Relation.mk A.name A.scheme
      (B.contents.elems.foldl (fun acc t => acc.insert t)
        (A.contents.elems.foldl (fun acc t => acc.insert t) StdSet.empty)) := by
  unfold unionWith
  rw [if_neg (by simpa using h)]
  simp only
  rw [foldl_addTuple A.contents.elems (Relation.new A.name A.scheme) (fun t ht => hA t ht)]
  rw [foldl_addTuple B.contents.elems _ (fun t ht => by
    have := hB t ht
    rw [h] at this
    exact this)]
  rfl

theorem foldl_addTuple_name_scheme (l : List Tuple) :
    ∀ (r : Relation), (l.foldl (fun r t => (r.addTuple t).2) r).name = r.name ∧
      (l.foldl (fun r t => (r.addTuple t).2) r).scheme = r.scheme := by
  induction l with
  | nil => intro r; exact ⟨rfl, rfl⟩
  | cons t l ih =>
    intro r
    rw [List.foldl_cons]
    have h := ih (r.addTuple t).2
    have h' : (r.addTuple t).2.name = r.name ∧ (r.addTuple t).2.scheme = r.scheme := by
      unfold addTuple
      split <;> exact ⟨rfl, rfl⟩
    exact ⟨h.1.trans h'.1, h.2.trans h'.2⟩

theorem unionWith_name_scheme (A B : Relation) :
    (A.unionWith B).name = A.name ∧ (A.unionWith B).scheme = A.scheme := by
  unfold unionWith
  split
  · exact ⟨rfl, rfl⟩
  · have h1 := foldl_addTuple_name_scheme A.contents.elems (Relation.new A.name A.scheme)
    have h2 := foldl_addTuple_name_scheme B.contents.elems
      (A.contents.elems.foldl (fun r t => (r.addTuple t).2) (Relation.new A.name A.scheme))
    exact ⟨h2.1.trans h1.1, h2.2.trans h1.2⟩

theorem mem_unionWith (A B : Relation) (hA : A.WellFormed) (hB : B.WellFormed)
    (h : B.scheme = A.scheme) (t : Tuple) :
    t ∈ (A.unionWith B).contents.elems ↔ t ∈ A.contents.elems ∨ t ∈ B.contents.elems := by
  rw [unionWith_of_scheme_eq A B hA hB h]
  simp only
  rw [mem_foldl_insert_id, mem_foldl_insert_id]
  simp [StdSet.empty]

/-- C6. For well-formed `A` and `B`, `A.unionWith(B)` has `A`'s name and scheme; when the
schemes are equal its content set is the union of the two content sets, and otherwise it
is empty. -/
theorem unionWith_spec (A B : Relation) (hA : A.WellFormed) (hB : B.WellFormed) :
    (A.unionWith B).name = A.name ∧ (A.unionWith B).scheme = A.scheme ∧
    (B.scheme = A.scheme →
      ∀ t, t ∈ (A.unionWith B).contents ↔ t ∈ A.contents ∨ t ∈ B.contents) ∧
    (B.scheme ≠ A.scheme → (A.unionWith B).contents.elems = []) := by
  refine ⟨(unionWith_name_scheme A B).1, (unionWith_name_scheme A B).2, ?_, ?_⟩
  · intro h t
    exact mem_unionWith A B hA hB h t
  · intro h
    rw [unionWith_of_scheme_ne A B h]
    rfl

/-- C6, the two scenarios of the specification: `{(1,2)}` union `{(1,2),(3,4)}` over the
scheme `[A,B]` is `{(1,2),(3,4)}`, and the union of relations over `[A,B]` and `[X,Y]` is
empty with the left name and scheme. -/
theorem unionWith_spec_witness :
    (ofRows "A" ["A", "B"] [["1", "2"]]).WellFormed ∧
    (ofRows "B" ["A", "B"] [["1", "2"], ["3", "4"]]).WellFormed ∧
    ((ofRows "A" ["A", "B"] [["1", "2"]]).unionWith
      (ofRows "B" ["A", "B"] [["1", "2"], ["3", "4"]])).contents.elems
        = [["1", "2"], ["3", "4"]] ∧
    ((ofRows "A" ["A", "B"] [["1", "2"]]).unionWith
      (ofRows "C" ["X", "Y"] [["7", "8"]])).contents.elems = [] ∧
    ((ofRows "A" ["A", "B"] [["1", "2"]]).unionWith
      (ofRows "C" ["X", "Y"] [["7", "8"]])).name = "A" ∧
    ((ofRows "A" ["A", "B"] [["1", "2"]]).unionWith
      (ofRows "C" ["X", "Y"] [["7", "8"]])).scheme = ["A", "B"] := by
  have h := unionWith_spec (ofRows "A" ["A", "B"] [["1", "2"]])
    (ofRows "C" ["X", "Y"] [["7", "8"]]) (by decide) (by decide)
  exact ⟨by decide, by decide, by decide, h.2.2.2 (by decide), h.1, h.2.1⟩

/-- C7, as stated, fails: two empty relations over the scheme `[X]` named `A` and `B`
have unions that differ in their names, so `operator==` is false. -/
theorem unionWith_comm_counterexample :
    (Relation.new "A" ["X"]).WellFormed ∧ (Relation.new "B" ["X"]).WellFormed ∧
    (Relation.new "A" ["X"]).scheme = (Relation.new "B" ["X"]).scheme ∧
    ((Relation.new "A" ["X"]).unionWith (Relation.new "B" ["X"])).eq
      ((Relation.new "B" ["X"]).unionWith (Relation.new "A" ["X"])) = false := by
  decide

/-- C7, amended. For well-formed `A` and `B` with equal schemes, `A.unionWith(B)` and
`B.unionWith(A)` have the same scheme and the same content set, each carries the name of
its left operand, and they are equal under `operator==` exactly when `A` and `B` have
the same name. -/
theorem unionWith_comm (A B : Relation) (hA : A.WellFormed) (hB : B.WellFormed)
    (h : A.scheme = B.scheme) :
    (A.unionWith B).scheme = (B.unionWith A).scheme ∧
    (A.unionWith B).contents = (B.unionWith A).contents ∧
    (A.unionWith B).name = A.name ∧ (B.unionWith A).name = B.name ∧
    ((A.unionWith B).eq (B.unionWith A) = true ↔ A.name = B.name) := by
  have hc : (A.unionWith B).contents = (B.unionWith A).contents := by
    apply StdSet.ext
    intro t
    rw [mem_unionWith A B hA hB h.symm, mem_unionWith B A hB hA h]
    exact Or.comm
  have hs : (A.unionWith B).scheme = (B.unionWith A).scheme := by
    rw [(unionWith_name_scheme A B).2, (unionWith_name_scheme B A).2, h]
  have hn1 := (unionWith_name_scheme A B).1
  have hn2 := (unionWith_name_scheme B A).1
  refine ⟨hs, hc, hn1, hn2, ?_⟩
  simp [eq, hs, hc, hn1, hn2]

/-- C7, amended, at the relations `{(1,2)}` named `A` and `{(3,4)}` named `A` over the
scheme `[A,B]`. -/
theorem unionWith_comm_witness :
    ((ofRows "A" ["A", "B"] [["1", "2"]]).unionWith (ofRows "A" ["A", "B"] [["3", "4"]])).eq
      ((ofRows "A" ["A", "B"] [["3", "4"]]).unionWith (ofRows "A" ["A", "B"] [["1", "2"]]))
      = true :=
  (unionWith_comm (ofRows "A" ["A", "B"] [["1", "2"]]) (ofRows "A" ["A", "B"] [["3", "4"]])
    (by decide) (by decide) (by decide)).2.2.2.2.mpr (by decide)

/-- C8. For every well-formed `A`, `A.unionWith(A) == A`. -/
theorem unionWith_self (A : Relation) (hA : A.WellFormed) : (A.unionWith A).eq A = true := by
  have hc : (A.unionWith A).contents = A.contents := by
    apply StdSet.ext
    intro t
    rw [mem_unionWith A A hA hA rfl]
    exact or_self_iff
  have hs := unionWith_name_scheme A A
  simp [eq, hs.1, hs.2, hc]

/-- C8 at the relation `{(1,2),(3,4)}` over the scheme `[A,B]`. -/
theorem unionWith_self_witness :
    (ofRows "A" ["A", "B"] [["1", "2"], ["3", "4"]]).WellFormed ∧
    ((ofRows "A" ["A", "B"] [["1", "2"], ["3", "4"]]).unionWith
      (ofRows "A" ["A", "B"] [["1", "2"], ["3", "4"]])).eq
      (ofRows "A" ["A", "B"] [["1", "2"], ["3", "4"]]) = true :=
  ⟨by decide, unionWith_self _ (by decide)⟩

end Relation

namespace Relation

/-! ## Checked accesses -/

theorem vecAt_of_lt (v : Tuple) (i : Nat) (h : i < v.length) : vecAt v i = some v[i] := by
  simp [vecAt, h]

theorem vecSetAt_of_lt (v : Tuple) (i : Nat) (x : String) (h : i < v.length) :
    vecSetAt v i x = some (v.set i x) := by
  simp [vecSetAt, h]

/-! ## C3: value selection -/

theorem valueMatch_eq (n : Nat) (t : Tuple) (ht : t.length = n) :
    ∀ q : List (Nat × String),
      valueMatch n t q = some (decide (∀ c ∈ q, c.1 < n → t[c.1]? = some c.2))
  | [] => by simp [valueMatch]
  | c :: q => by
    unfold valueMatch
    by_cases hc : c.1 ≥ n
    · rw [if_pos hc, valueMatch_eq n t ht q]
      have : ¬ c.1 < n := by omega
      simp [this]
    · rw [if_neg hc]
      have hlt : c.1 < t.length := by omega
      have hlt' : c.1 < n := by omega
      rw [vecAt_of_lt t c.1 hlt]
      by_cases hv : t[c.1] = c.2
      · simp [hv, valueMatch_eq n t ht q, hlt', List.getElem?_eq_getElem hlt]
      · simp [hv, hlt', List.getElem?_eq_getElem hlt]

theorem select_loop (scheme : Tuple) (q : List (Nat × String)) :
    ∀ (l : List Tuple) (acc : Relation), acc.scheme = scheme →
      (∀ t ∈ l, t.length = scheme.length) →
      ∃ r, l.foldlM (fun result t => do
          let isMatch ← valueMatch result.getColumnCount t q
          pure (if isMatch then (result.addTuple t).2 else result)) acc = some r ∧
        r.name = acc.name ∧ r.scheme = scheme ∧
        ∀ u, u ∈ r.contents.elems ↔ u ∈ acc.contents.elems ∨
          (u ∈ l ∧ ∀ c ∈ q, c.1 < scheme.length → u[c.1]? = some c.2)
  | [], acc, hs, _ => ⟨acc, by simp, rfl, hs, by simp⟩
  | t :: l, acc, hs, hl => by
    have ht : t.length = scheme.length := hl t (List.mem_cons_self _ _)
    have hl' : ∀ u ∈ l, u.length = scheme.length := fun u hu => hl u (List.mem_cons_of_mem _ hu)
    rw [List.foldlM_cons]
    have hcount : acc.getColumnCount = scheme.length := by rw [getColumnCount, hs]
    rw [hcount, valueMatch_eq scheme.length t ht q]
    simp only [Option.pure_def, Option.bind_eq_bind, Option.some_bind]
    by_cases hm : ∀ c ∈ q, c.1 < scheme.length → t[c.1]? = some c.2
    · rw [decide_eq_true hm, if_pos rfl, addTuple_of_length acc t (by rw [ht, hs])]
      obtain ⟨r, hr, hn, hsch, hmem⟩ := select_loop scheme q l
        { acc with contents := acc.contents.insert t } hs hl'
      refine ⟨r, hr, hn, hsch, ?_⟩
      intro u
      rw [hmem u, StdSet.mem_insert]
      constructor
      · rintro ((e | h) | ⟨h1, h2⟩)
        · subst e
          exact Or.inr ⟨List.mem_cons_self _ _, hm⟩
        · exact Or.inl h
        · exact Or.inr ⟨List.mem_cons_of_mem _ h1, h2⟩
      · rintro (h | ⟨h1, h2⟩)
        · exact Or.inl (Or.inr h)
        · rcases List.mem_cons.mp h1 with e | h1'
          · exact Or.inl (Or.inl e)
          · exact Or.inr ⟨h1', h2⟩
    · rw [decide_eq_false hm]
      simp only [Bool.false_eq_true, if_false]
      obtain ⟨r, hr, hn, hsch, hmem⟩ := select_loop scheme q l acc hs hl'
      refine ⟨r, hr, hn, hsch, ?_⟩
      intro u
      rw [hmem u]
      constructor
      · rintro (h | ⟨h1, h2⟩)
        · exact Or.inl h
        · exact Or.inr ⟨List.mem_cons_of_mem _ h1, h2⟩
      · rintro (h | ⟨h1, h2⟩)
        · exact Or.inl h
        · rcases List.mem_cons.mp h1 with e | h1'
          · subst e
            exact absurd h2 hm
          · exact Or.inr ⟨h1', h2⟩

/-- C3. For a well-formed relation `R` and constraints `q`, `R.select(q)` returns a
relation with `R`'s name and scheme whose rows are exactly the rows `t` of `R` with
`t[i] = v` for every constraint `(i, v)` whose index is below the column count. -/
theorem select_spec (R : Relation) (hR : R.WellFormed) (q : List (Nat × String)) :
    ∃ r, R.select q = some r ∧ r.name = R.name ∧ r.scheme = R.scheme ∧
      ∀ t, t ∈ r.contents ↔
        (t ∈ R.contents ∧ ∀ c ∈ q, c.1 < R.getColumnCount → t[c.1]? = some c.2) := by
  obtain ⟨r, hr, hn, hs, hmem⟩ := select_loop R.scheme q R.contents.elems
    (Relation.new R.name R.scheme) rfl hR
  refine ⟨r, hr, hn, hs, ?_⟩
  intro t
  have := hmem t
  simp only [new, StdSet.empty, List.not_mem_nil, false_or] at this
  exact this

/-- C3 at the scenario of the specification: selecting column 0 equal to `"1"` from
`{(1,2),(1,3)}` keeps both rows. -/
theorem select_spec_witness :
    (ofRows "R1" ["A", "B"] [["1", "2"], ["1", "3"]]).WellFormed ∧
    ((ofRows "R1" ["A", "B"] [["1", "2"], ["1", "3"]]).select [(0, "1")]).map
      (fun r => r.contents.elems) = some [["1", "2"], ["1", "3"]] ∧
    ∃ r, (ofRows "R1" ["A", "B"] [["1", "2"], ["1", "3"]]).select [(0, "1")] = some r ∧
      r.name = "R1" ∧ r.scheme = ["A", "B"] ∧
      ∀ t, t ∈ r.contents ↔
        (t ∈ (ofRows "R1" ["A", "B"] [["1", "2"], ["1", "3"]]).contents ∧
          ∀ c ∈ [((0 : Nat), "1")],
            c.1 < (ofRows "R1" ["A", "B"] [["1", "2"], ["1", "3"]]).getColumnCount →
            t[c.1]? = some c.2) :=
  ⟨by decide, by decide,
    select_spec (ofRows "R1" ["A", "B"] [["1", "2"], ["1", "3"]]) (by decide) [(0, "1")]⟩

end Relation

namespace Relation

/-! ## C9: rename by replacement scheme -/

theorem length_eq_iff_nodup_of_mem_iff {α : Type} {e m : List α} (he : e.Nodup)
    (h : ∀ a, a ∈ e ↔ a ∈ m) : e.length = m.length ↔ m.Nodup := by
  constructor
  · intro hlen
    have hsub : e.Subperm m := List.subperm_of_subset he (fun a ha => (h a).mp ha)
    have hperm : e.Perm m := hsub.perm_of_length_le (by omega)
    exact hperm.nodup_iff.mp he
  · intro hm
    exact ((List.perm_ext_iff_of_nodup he hm).mpr h).length_eq

theorem mergedScheme_length (old new : Tuple) (h : new.length = old.length) :
    (mergedScheme old new).length = old.length := by
  simp [mergedScheme, h]

theorem mergedScheme_getElem? (old new : Tuple) (i : Nat) (hi : i < old.length)
    (hn : i < new.length) :
    (mergedScheme old new)[i]? = some (if new[i] ≠ "" then new[i] else old[i]) := by
  simp [mergedScheme, List.getElem?_zipWith, List.getElem?_eq_getElem hi,
    List.getElem?_eq_getElem hn]

theorem rename_loop (old new : Tuple) (h : new.length = old.length) :
    ∀ k, k ≤ old.length →
      ∃ st, (List.range k).foldlM (renameStep old new) (old, StdSet.empty) = some st ∧
        st.1.length = old.length ∧
        (∀ i, st.1[i]? = if i < k then (mergedScheme old new)[i]? else old[i]?) ∧
        (∀ a, a ∈ st.2.elems ↔ ∃ i, i < k ∧ (mergedScheme old new)[i]? = some a)
  | 0, _ => ⟨(old, StdSet.empty), by simp, rfl, by simp, by simp [StdSet.empty]⟩
  | k + 1, hk => by
    obtain ⟨st, hst, hlen, hget, hmem⟩ := rename_loop old new h k (by omega)
    have hko : k < old.length := by omega
    have hkn : k < new.length := by omega
    rw [List.range_succ, List.foldlM_append, hst]
    simp only [Option.bind_eq_bind, Option.some_bind, List.foldlM_cons, List.foldlM_nil,
      Option.pure_def, Option.bind_some]
    have hm := mergedScheme_getElem? old new k hko hkn
    unfold renameStep
    rw [vecAt_of_lt old k hko, vecAt_of_lt new k hkn]
    simp only [Option.bind_eq_bind, Option.some_bind, Option.pure_def]
    by_cases hne : new[k] ≠ ""
    · rw [if_pos hne] at hm
      rw [if_pos hne, vecSetAt_of_lt st.1 k new[k] (by omega)]
      refine ⟨_, rfl, by simp [hlen], ?_, ?_⟩
      · intro i
        simp only [Option.some_bind]
        rw [List.getElem?_set]
        by_cases hik : k = i
        · subst hik
          simp [hm, hlen, hko]
        · rw [if_neg hik, hget i]
          by_cases h1 : i < k
          · simp [h1, show i < k + 1 by omega]
          · simp [h1, show ¬ i < k + 1 by omega]
      · intro a
        simp only [Option.some_bind]
        rw [StdSet.mem_insert, hmem a]
        constructor
        · rintro (e | ⟨i, hi, hi'⟩)
          · exact ⟨k, by omega, by rw [hm, e]⟩
          · exact ⟨i, by omega, hi'⟩
        · rintro ⟨i, hi, hi'⟩
          by_cases hik : i = k
          · subst hik
            rw [hm] at hi'
            exact Or.inl (Option.some.inj hi').symm
          · exact Or.inr ⟨i, by omega, hi'⟩
    · rw [if_neg hne] at hm
      rw [if_neg hne]
      refine ⟨_, rfl, hlen, ?_, ?_⟩
      · intro i
        show st.1[i]? = _
        rw [hget i]
        by_cases hik : i = k
        · subst hik
          simp [hm, List.getElem?_eq_getElem hko]
        · by_cases h1 : i < k
          · simp [h1, show i < k + 1 by omega]
          · simp [h1, show ¬ i < k + 1 by omega]
      · intro a
        show a ∈ (st.2.insert old[k]).elems ↔ _
        rw [StdSet.mem_insert, hmem a]
        constructor
        · rintro (e | ⟨i, hi, hi'⟩)
          · exact ⟨k, by omega, by rw [hm, e]⟩
          · exact ⟨i, by omega, hi'⟩
        · rintro ⟨i, hi, hi'⟩
          by_cases hik : i = k
          · subst hik
            rw [hm] at hi'
            exact Or.inl (Option.some.inj hi').symm
          · exact Or.inr ⟨i, by omega, hi'⟩

theorem rename_of_length_eq (R : Relation) (n : Tuple) (h : n.length = R.scheme.length) :
    R.rename n = some (if (mergedScheme R.scheme n).Nodup
      then { name := R.name, scheme := mergedScheme R.scheme n, contents := R.contents }
      else R) := by
  unfold rename
  by_cases hid : n = R.scheme
  · rw [if_pos (Or.inr hid)]
    have hm : mergedScheme R.scheme n = R.scheme := by
      subst hid
      apply List.ext_getElem?
      intro i
      by_cases hi : i < R.scheme.length
      · rw [mergedScheme_getElem? R.scheme R.scheme i hi hi, List.getElem?_eq_getElem hi]
        by_cases he : R.scheme[i] = ""
        · simp [he]
        · simp [he]
      · rw [List.getElem?_eq_none (by rw [mergedScheme_length _ _ rfl]; omega),
          List.getElem?_eq_none (by omega)]
    rw [hm]
    split <;> rfl
  · rw [if_neg (by simp [h, hid])]
    obtain ⟨st, hst, hlen, hget, hmem⟩ := rename_loop R.scheme n h R.scheme.length (le_refl _)
    rw [h, hst]
    simp only [Option.bind_eq_bind, Option.some_bind, Option.pure_def]
    have hsch : st.1 = mergedScheme R.scheme n := by
      apply List.ext_getElem?
      intro i
      rw [hget i]
      by_cases hi : i < R.scheme.length
      · rw [if_pos hi]
      · rw [if_neg hi, List.getElem?_eq_none (by omega),
          List.getElem?_eq_none (by rw [mergedScheme_length _ _ h]; omega)]
    have hmem' : ∀ a, a ∈ st.2.elems ↔ a ∈ mergedScheme R.scheme n := by
      intro a
      rw [hmem a, List.mem_iff_getElem?]
      constructor
      · rintro ⟨i, _, hi⟩
        exact ⟨i, hi⟩
      · rintro ⟨i, hi⟩
        refine ⟨i, ?_, hi⟩
        by_contra hlt
        rw [List.getElem?_eq_none (by rw [mergedScheme_length _ _ h]; omega)] at hi
        exact Option.noConfusion hi
    have hiff : st.2.size = (mergedScheme R.scheme n).length ↔ (mergedScheme R.scheme n).Nodup :=
      length_eq_iff_nodup_of_mem_iff (StdSet.nodup_of_sorted st.2.sorted) hmem'
    rw [← hsch] at hiff ⊢
    by_cases hnd : st.1.Nodup
    · rw [if_pos (hiff.mpr hnd), if_pos hnd]
    · rw [if_neg (fun hsz => hnd (hiff.mp hsz)), if_neg hnd]

/-- C9. With `m` the merged scheme (`m[i] = n[i]` where `n[i]` is non-empty, else the old
name), `R.rename(n)` returns `R` itself when `n` and the scheme differ in length or `m`
has a duplicate name, and otherwise the relation with `R`'s name, scheme `m` and `R`'s
content set. -/
theorem rename_spec (R : Relation) (n : Tuple) :
    (n.length ≠ R.scheme.length ∨ ¬ (mergedScheme R.scheme n).Nodup → R.rename n = some R) ∧
    (n.length = R.scheme.length → (mergedScheme R.scheme n).Nodup →
      R.rename n = some
        { name := R.name, scheme := mergedScheme R.scheme n, contents := R.contents }) := by
  constructor
  · intro hcase
    by_cases h : n.length = R.scheme.length
    · rcases hcase with h' | h'
      · exact absurd h h'
      · rw [rename_of_length_eq R n h, if_neg h']
    · simp [rename, h]
  · intro h hnd
    rw [rename_of_length_eq R n h, if_pos hnd]

end Relation

namespace Relation

/-! ## Exchanging two positions of a vector -/

theorem listSwap_of_lt {α : Type} (v : List α) (i j : Nat) (hi : i < v.length)
    (hj : j < v.length) : listSwap v i j = (v.set i v[j]).set j v[i] := by
  simp [listSwap, List.getElem?_eq_getElem hi, List.getElem?_eq_getElem hj]

theorem listSwap_length {α : Type} (v : List α) (i j : Nat) :
    (listSwap v i j).length = v.length := by
  unfold listSwap
  split <;> simp

theorem listSwap_map {α β : Type} (f : α → β) (v : List α) (i j : Nat) :
    (listSwap v i j).map f = listSwap (v.map f) i j := by
  unfold listSwap
  rw [List.getElem?_map, List.getElem?_map]
  cases hi : v[i]? <;> cases hj : v[j]? <;> simp [List.map_set]

theorem getElem?_listSwap {α : Type} (v : List α) (i j m : Nat) (hi : i < v.length)
    (hj : j < v.length) :
    (listSwap v i j)[m]? = if m = j then v[i]? else if m = i then v[j]? else v[m]? := by
  rw [listSwap_of_lt v i j hi hj, List.getElem?_set]
  by_cases h1 : j = m
  · subst h1
    simp [hj, List.getElem?_eq_getElem hi]
  · rw [if_neg h1, if_neg (fun e => h1 e.symm), List.getElem?_set]
    by_cases h2 : i = m
    · subst h2
      simp [hi, List.getElem?_eq_getElem hj]
    · rw [if_neg h2, if_neg (fun e => h2 e.symm)]

theorem listSwap_self {α : Type} (v : List α) (i : Nat) : listSwap v i i = v := by
  by_cases hi : i < v.length
  · apply List.ext_getElem?
    intro m
    rw [getElem?_listSwap v i i m hi hi]
    by_cases h : m = i
    · rw [if_pos h, h]
    · rw [if_neg h, if_neg h]
  · simp [listSwap, List.getElem?_eq_none (show v.length ≤ i by omega)]

theorem mem_listSwap {α : Type} (v : List α) (i j : Nat) (x : α) :
    x ∈ listSwap v i j ↔ x ∈ v := by
  by_cases hi : i < v.length
  · by_cases hj : j < v.length
    · rw [List.mem_iff_getElem?, List.mem_iff_getElem?]
      constructor
      · rintro ⟨m, hm⟩
        rw [getElem?_listSwap v i j m hi hj] at hm
        by_cases h1 : m = j
        · rw [if_pos h1] at hm
          exact ⟨i, hm⟩
        · rw [if_neg h1] at hm
          by_cases h2 : m = i
          · rw [if_pos h2] at hm
            exact ⟨j, hm⟩
          · rw [if_neg h2] at hm
            exact ⟨m, hm⟩
      · rintro ⟨m, hm⟩
        by_cases h1 : m = i
        · refine ⟨j, ?_⟩
          rw [getElem?_listSwap v i j j hi hj, if_pos rfl, ← h1]
          exact hm
        · by_cases h2 : m = j
          · subst h2
            refine ⟨i, ?_⟩
            rw [getElem?_listSwap v i m i hi hj]
            by_cases h3 : i = m
            · rw [if_pos h3, h3]
              exact hm
            · rw [if_neg h3, if_pos rfl]
              exact hm
          · refine ⟨m, ?_⟩
            rw [getElem?_listSwap v i j m hi hj, if_neg h2, if_neg h1]
            exact hm
    · simp [listSwap, List.getElem?_eq_none (show v.length ≤ j by omega)]
  · simp [listSwap, List.getElem?_eq_none (show v.length ≤ i by omega)]

theorem swapAt_of_lt (v : Tuple) (i j : Nat) (hi : i < v.length) (hj : j < v.length) :
    swapAt v i j = some (listSwap v i j) := by
  unfold swapAt
  rw [vecAt_of_lt v i hi, vecAt_of_lt v j hj]
  simp only [Option.bind_eq_bind, Option.some_bind]
  rw [vecSetAt_of_lt v i v[j] hi]
  simp only [Option.some_bind]
  rw [vecSetAt_of_lt _ j v[i] (by simpa using hj), listSwap_of_lt v i j hi hj]

/-! ## `swapColumns` -/

theorem swap_rows_loop (i j : Nat) :
    ∀ (l : List Tuple) (acc : StdSet Tuple), (∀ t ∈ l, i < t.length ∧ j < t.length) →
      l.foldlM (fun (reordered : StdSet Tuple) t => do
        let t ← swapAt t i j
        pure (reordered.insert t)) acc =
      some (l.foldl (fun acc t => acc.insert (listSwap t i j)) acc)
  | [], acc, _ => by simp
  | t :: l, acc, h => by
    have ht := h t (List.mem_cons_self _ _)
    rw [List.foldlM_cons, swapAt_of_lt t i j ht.1 ht.2]
    simp only [Option.bind_eq_bind, Option.some_bind, Option.pure_def, List.foldl_cons]
    exact swap_rows_loop i j l _ (fun u hu => h u (List.mem_cons_of_mem _ hu))

theorem swapColumns_of_lt (r : Relation) (hr : r.WellFormed) (i j : Nat)
    (hi : i < r.scheme.length) (hj : j < r.scheme.length) :
    ∃ r', r.swapColumns i j = some r' ∧ r'.name = r.name ∧
      r'.scheme = listSwap r.scheme i j ∧
      ∀ u, u ∈ r'.contents.elems ↔ ∃ t ∈ r.contents.elems, u = listSwap t i j := by
  unfold swapColumns
  simp only [getColumnCount, ge_iff_le]
  rw [if_neg (show ¬ r.scheme.length ≤ i by omega),
    if_neg (show ¬ r.scheme.length ≤ j by omega)]
  by_cases hij : i = j
  · subst hij
    rw [if_pos rfl]
    refine ⟨r, rfl, rfl, (listSwap_self _ _).symm, ?_⟩
    intro u
    constructor
    · intro hu
      exact ⟨u, hu, (listSwap_self _ _).symm⟩
    · rintro ⟨t, ht, e⟩
      rw [e, listSwap_self]
      exact ht
  · rw [if_neg hij, swap_rows_loop i j r.contents.elems StdSet.empty (fun t ht => by
      have := hr t ht
      omega), swapAt_of_lt r.scheme i j hi hj]
    simp only [Option.bind_eq_bind, Option.some_bind, Option.pure_def]
    refine ⟨_, rfl, rfl, rfl, ?_⟩
    intro u
    simp only
    rw [StdSet.mem_foldl_insert]
    simp only [StdSet.empty, List.not_mem_nil, false_or]
    constructor
    · rintro ⟨t, ht, e⟩
      exact ⟨t, ht, e.symm⟩
    · rintro ⟨t, ht, e⟩
      exact ⟨t, ht, e.symm⟩

theorem swapColumns_self (r : Relation) (i : Nat) (hi : i < r.scheme.length) :
    r.swapColumns i i = some r := by
  unfold swapColumns
  simp only [getColumnCount, ge_iff_le]
  rw [if_neg (show ¬ r.scheme.length ≤ i by omega)]
  simp

end Relation

namespace Relation

/-! ## `stripExtraColsFromScheme` -/

theorem vectorContainsValue_eq (query : String) :
    ∀ domain : List String, vectorContainsValue domain query = decide (query ∈ domain)
  | [] => by simp [vectorContainsValue]
  | val :: rest => by
    unfold vectorContainsValue
    by_cases h : val = query
    · simp [h]
    · rw [if_neg h, vectorContainsValue_eq query rest]
      have h' : ¬ query = val := fun e => h e.symm
      simp [h']

theorem mem_dedupFirst (x : String) : ∀ l : List String, x ∈ dedupFirst l ↔ x ∈ l
  | [] => by simp [dedupFirst]
  | y :: ys => by
    unfold dedupFirst
    by_cases h : x = y
    · simp [h]
    · simp [h, List.mem_filter, mem_dedupFirst x ys]

theorem nodup_dedupFirst : ∀ l : List String, (dedupFirst l).Nodup
  | [] => by simp [dedupFirst]
  | y :: ys => by
    unfold dedupFirst
    refine List.nodup_cons.mpr ⟨?_, (nodup_dedupFirst ys).filter _⟩
    simp [List.mem_filter]

theorem dedupFirst_cons (x : String) (xs : List String) :
    dedupFirst (x :: xs) = x :: (dedupFirst xs).filter (fun y => y ≠ x) := rfl

theorem foldl_dedup :
    ∀ (l acc : List String),
      l.foldl (fun acc col => if !vectorContainsValue acc col then acc ++ [col] else acc) acc =
        acc ++ (dedupFirst l).filter (fun x => x ∉ acc)
  | [], acc => by simp [dedupFirst]
  | x :: xs, acc => by
    rw [List.foldl_cons, vectorContainsValue_eq]
    by_cases h : x ∈ acc
    · simp only [h, decide_True, Bool.not_true, Bool.false_eq_true, if_false]
      rw [foldl_dedup xs acc]
      congr 1
      rw [dedupFirst_cons, List.filter_cons, List.filter_filter]
      simp only [h, not_true_eq_false, decide_False, Bool.false_eq_true, if_false]
      apply List.filter_congr
      intro y _
      by_cases hy : y ∈ acc
      · simp [hy]
      · have : y ≠ x := fun e => hy (e ▸ h)
        simp [hy, this]
    · simp only [h, decide_False, Bool.not_false, if_true]
      rw [foldl_dedup xs (acc ++ [x])]
      rw [dedupFirst_cons, List.filter_cons, List.filter_filter]
      simp only [h, not_false_eq_true, decide_True, if_true]
      rw [List.append_assoc, List.singleton_append]
      congr 2
      apply List.filter_congr
      intro y _
      by_cases hy : y ∈ acc
      · simp [hy]
      · by_cases hyx : y = x
        · simp [hyx]
        · simp [hy, hyx]

theorem foldl_keep (scheme : List String) :
    ∀ (l acc : List String),
      l.foldl (fun result col =>
        if vectorContainsValue scheme col then result ++ [col] else result) acc =
        acc ++ l.filter (fun x => x ∈ scheme)
  | [], acc => by simp
  | x :: xs, acc => by
    rw [List.foldl_cons, vectorContainsValue_eq, foldl_keep scheme xs]
    by_cases h : x ∈ scheme
    · simp [h]
    · simp [h]

theorem stripExtraColsFromScheme_eq (R : Relation) (s : Tuple) :
    R.stripExtraColsFromScheme s = cleanedScheme R.scheme s := by
  unfold stripExtraColsFromScheme cleanedScheme
  cases s with
  | nil => simp [dedupFirst]
  | cons x xs =>
    simp only [List.isEmpty_cons, Bool.false_eq_true, if_false]
    rw [foldl_dedup, foldl_keep]
    simp

theorem nodup_cleanedScheme (scheme s : Tuple) : (cleanedScheme scheme s).Nodup :=
  (nodup_dedupFirst s).filter _

theorem mem_cleanedScheme (scheme s : Tuple) (x : String) :
    x ∈ cleanedScheme scheme s ↔ x ∈ s ∧ x ∈ scheme := by
  simp [cleanedScheme, List.mem_filter, mem_dedupFirst]

theorem cleanedScheme_idem (scheme s : Tuple) :
    cleanedScheme (cleanedScheme scheme s) s = cleanedScheme scheme s := by
  unfold cleanedScheme
  apply List.filter_congr
  intro x hx
  simp [List.mem_filter, hx]

theorem length_cleanedScheme_le (scheme s : Tuple) :
    (cleanedScheme scheme s).length ≤ scheme.length :=
  (List.subperm_of_subset (nodup_cleanedScheme scheme s)
    (fun _ hx => ((mem_cleanedScheme scheme s _).mp hx).2)).length_le

/-! ## `indexForColumnInTuple` -/

theorem indexLoop_eq (col : String) (domain : Tuple) :
    ∀ (m k : Nat), k + m = domain.length →
      indexLoop col domain (List.range' k m) =
        some (if col ∈ domain.drop k
          then ((k + (domain.drop k).indexOf col : Nat) : Int) else -1)
  | 0, k, h => by
    have : domain.drop k = [] := List.drop_eq_nil_of_le (by omega)
    simp [indexLoop, this]
  | m + 1, k, h => by
    have hk : k < domain.length := by omega
    rw [List.range'_succ]
    unfold indexLoop
    rw [vecAt_of_lt domain k hk, List.drop_eq_getElem_cons hk]
    simp only [Option.bind_eq_bind, Option.some_bind, Option.pure_def]
    by_cases hx : domain[k] = col
    · simp [hx]
    · rw [if_neg hx, indexLoop_eq col domain m (k + 1) (by omega)]
      have hx' : ¬ col = domain[k] := fun e => hx e.symm
      by_cases hmem : col ∈ domain.drop (k + 1)
      · simp only [hmem, List.mem_cons, hx', false_or, if_true]
        rw [List.indexOf_cons_ne _ hx]
        simp only [Nat.succ_eq_add_one]
        congr 2
        omega
      · rw [if_neg hmem, if_neg (by
          simp only [List.mem_cons, not_or]
          exact ⟨hx', hmem⟩)]

theorem indexForColumnInTuple_eq (col : String) (domain : Tuple) :
    indexForColumnInTuple col domain =
      some (if col ∈ domain then ((domain.indexOf col : Nat) : Int) else -1) := by
  unfold indexForColumnInTuple
  rw [List.range_eq_range', indexLoop_eq col domain domain.length 0 (by omega)]
  simp

theorem indexForColumnInScheme_of_mem (r : Relation) (col : String) (h : col ∈ r.scheme) :
    r.indexForColumnInScheme col = some ((r.scheme.indexOf col : Nat) : Int) := by
  rw [indexForColumnInScheme, indexForColumnInTuple_eq, if_pos h]

theorem indexForColumnInScheme_of_not_mem (r : Relation) (col : String) (h : col ∉ r.scheme) :
    r.indexForColumnInScheme col = some (-1) := by
  rw [indexForColumnInScheme, indexForColumnInTuple_eq, if_neg h]

theorem intToSize_natCast (n : Nat) : intToSize (n : Int) = n := by
  simp [intToSize]

end Relation

namespace Relation

/-! ## The loop of `project` -/

theorem map_getElem?_range (v : List String) :
    (List.range v.length).map (fun i => (v[i]?).getD "") = v := by
  apply List.ext_getElem?
  intro m
  rw [List.getElem?_map]
  by_cases h : m < v.length
  · rw [List.getElem?_range h, List.getElem?_eq_getElem h]
    simp [List.getElem?_eq_getElem h]
  · rw [List.getElem?_eq_none (by simpa using h), List.getElem?_eq_none (by omega)]
    rfl

theorem project_loop (R : Relation) (hR : R.WellFormed) (tgt : Tuple) (hc : tgt.Nodup)
    (hsub : ∀ x ∈ tgt, x ∈ R.scheme) (hlen : tgt.length ≤ R.scheme.length) :
    ∀ k, k ≤ tgt.length →
      ∃ (cur : Relation) (p : List Nat), (List.range k).foldlM (projectStep tgt) R = some cur ∧
        cur.name = R.name ∧ p.length = R.scheme.length ∧
        (∀ i ∈ p, i < R.scheme.length) ∧
        cur.scheme = p.map (fun i => (R.scheme[i]?).getD "") ∧
        (∀ x, x ∈ cur.scheme ↔ x ∈ R.scheme) ∧
        (∀ u, u ∈ cur.contents.elems ↔
          ∃ t ∈ R.contents.elems, u = p.map (fun i => (t[i]?).getD "")) ∧
        (∀ m, m < k → cur.scheme[m]? = tgt[m]?)
  | 0, _ => by
    refine ⟨R, List.range R.scheme.length, by simp, rfl, by simp, ?_,
      (map_getElem?_range R.scheme).symm, fun _ => Iff.rfl, ?_, ?_⟩
    · intro i hi
      exact List.mem_range.mp hi
    · intro u
      constructor
      · intro hu
        refine ⟨u, hu, ?_⟩
        rw [← hR u hu, map_getElem?_range]
      · rintro ⟨t, ht, e⟩
        rw [← hR t ht, map_getElem?_range] at e
        rw [e]
        exact ht
    · intro m hm
      omega
  | k + 1, hk => by
    obtain ⟨cur, p, hfold, hname, hplen, hplt, hsch, hmem, hcont, hpre⟩ :=
      project_loop R hR tgt hc hsub hlen k (by omega)
    have hkc : k < tgt.length := by omega
    have hcurlen : cur.scheme.length = R.scheme.length := by rw [hsch, List.length_map, hplen]
    have hkn : k < cur.scheme.length := by omega
    have hcol : tgt[k] ∈ cur.scheme := (hmem tgt[k]).mpr (hsub _ (List.getElem_mem _))
    have hidx : cur.scheme.indexOf tgt[k] < cur.scheme.length := List.indexOf_lt_length.mpr hcol
    have hval : cur.scheme[cur.scheme.indexOf tgt[k]]? = some tgt[k] := by
      rw [List.getElem?_eq_getElem hidx, List.getElem_indexOf hidx]
    have hge : k ≤ cur.scheme.indexOf tgt[k] := by
      by_contra hlt
      have hlt' : cur.scheme.indexOf tgt[k] < k := by omega
      have h1 := hpre _ hlt'
      rw [hval] at h1
      have h2 : tgt[cur.scheme.indexOf tgt[k]]? = tgt[k]? := by
        rw [← h1, List.getElem?_eq_getElem hkc]
      exact (List.nodup_iff_getElem?_ne_getElem?.mp hc _ _ hlt' hkc) h2
    have hwf : cur.WellFormed := by
      intro u hu
      obtain ⟨t, _, e⟩ := (hcont u).mp hu
      rw [e, List.length_map, hplen, hcurlen]
    obtain ⟨r', hswap, hname', hsch', hcont'⟩ :=
      swapColumns_of_lt cur hwf (cur.scheme.indexOf tgt[k]) k hidx hkn
    refine ⟨r', listSwap p (cur.scheme.indexOf tgt[k]) k, ?_, by rw [hname', hname],
      by rw [listSwap_length, hplen], ?_, ?_, ?_, ?_, ?_⟩
    · rw [List.range_succ, List.foldlM_append, hfold]
      simp only [Option.bind_eq_bind, Option.some_bind, List.foldlM_cons, List.foldlM_nil,
        Option.pure_def, Option.bind_some]
      unfold projectStep
      rw [vecAt_of_lt tgt k hkc, Option.bind_eq_bind, Option.some_bind,
        indexForColumnInScheme_of_mem cur tgt[k] hcol]
      simp only [Option.bind_eq_bind, Option.some_bind, intToSize_natCast]
      exact hswap
    · intro i hi
      exact hplt i ((mem_listSwap p _ _ i).mp hi)
    · rw [hsch', hsch, listSwap_map]
    · intro x
      rw [hsch', mem_listSwap]
      exact hmem x
    · intro u
      rw [hcont' u]
      constructor
      · rintro ⟨t', ht', e⟩
        obtain ⟨t, ht, e'⟩ := (hcont t').mp ht'
        refine ⟨t, ht, ?_⟩
        rw [e, e', listSwap_map]
      · rintro ⟨t, ht, e⟩
        refine ⟨p.map (fun i => (t[i]?).getD ""), (hcont _).mpr ⟨t, ht, rfl⟩, ?_⟩
        rw [e, listSwap_map]
    · intro m hm
      rw [hsch', getElem?_listSwap cur.scheme _ k m hidx hkn]
      by_cases h1 : m = k
      · rw [if_pos h1, hval, h1, List.getElem?_eq_getElem hkc]
      · rw [if_neg h1, if_neg (by omega)]
        exact hpre m (by omega)

theorem project_swaps (R : Relation) (hR : R.WellFormed) (tgt : Tuple) (hc : tgt.Nodup)
    (hsub : ∀ x ∈ tgt, x ∈ R.scheme) (hlen : tgt.length ≤ R.scheme.length) :
    ∃ (cur : Relation) (p : List Nat), (List.range tgt.length).foldlM (projectStep tgt) R = some cur ∧
      cur.name = R.name ∧ p.length = R.scheme.length ∧
      (∀ i ∈ p, i < R.scheme.length) ∧
      cur.scheme = p.map (fun i => (R.scheme[i]?).getD "") ∧
      (∀ u, u ∈ cur.contents.elems ↔
        ∃ t ∈ R.contents.elems, u = p.map (fun i => (t[i]?).getD "")) ∧
      cur.scheme.take tgt.length = tgt := by
  obtain ⟨cur, p, hfold, hname, hplen, hplt, hsch, _, hcont, hpre⟩ :=
    project_loop R hR tgt hc hsub hlen tgt.length (le_refl _)
  refine ⟨cur, p, hfold, hname, hplen, hplt, hsch, hcont, ?_⟩
  apply List.ext_getElem?
  intro m
  by_cases hm : m < tgt.length
  · rw [List.getElem?_take_of_lt hm]
    exact hpre m hm
  · rw [List.getElem?_take_eq_none (by omega), List.getElem?_eq_none (by omega)]

end Relation

namespace Relation

/-! ## `keepOnlyColumnsUntil` -/

theorem keepOnlyColumnsUntil_name (r : Relation) (col : Nat) :
    (r.keepOnlyColumnsUntil col).name = r.name := by
  unfold keepOnlyColumnsUntil
  split <;> rfl

theorem keepOnlyColumnsUntil_scheme (r : Relation) (col : Nat) :
    (r.keepOnlyColumnsUntil col).scheme = r.scheme.take col := by
  unfold keepOnlyColumnsUntil
  split
  · rename_i h
    rw [List.take_of_length_le h]
  · rfl

theorem keepOnlyColumnsUntil_of_ge (r : Relation) (col : Nat) (h : col ≥ r.scheme.length) :
    r.keepOnlyColumnsUntil col = r := by
  unfold keepOnlyColumnsUntil
  rw [getColumnCount, if_pos h]

theorem mem_keepOnlyColumnsUntil (r : Relation) (hr : r.WellFormed) (col : Nat) (hcol : 0 < col)
    (a : Tuple) :
    a ∈ (r.keepOnlyColumnsUntil col).contents.elems ↔
      ∃ u ∈ r.contents.elems, a = u.take col := by
  by_cases h : col ≥ r.scheme.length
  · rw [keepOnlyColumnsUntil_of_ge r col h]
    constructor
    · intro ha
      exact ⟨a, ha, (List.take_of_length_le (by rw [hr a ha]; exact h)).symm⟩
    · rintro ⟨u, hu, e⟩
      rw [e, List.take_of_length_le (by rw [hr u hu]; exact h)]
      exact hu
  · have hstr : ∀ b, b ∈ (r.contents.elems.foldl
        (fun (stripped : StdSet Tuple) t => stripped.insert (t.take col)) StdSet.empty).elems ↔
        ∃ u ∈ r.contents.elems, b = u.take col := by
      intro b
      rw [StdSet.mem_foldl_insert]
      simp only [StdSet.empty, List.not_mem_nil, false_or]
      constructor
      · rintro ⟨u, hu, e⟩
        exact ⟨u, hu, e.symm⟩
      · rintro ⟨u, hu, e⟩
        exact ⟨u, hu, e.symm⟩
    unfold keepOnlyColumnsUntil
    rw [getColumnCount, if_neg h]
    simp only
    rw [if_neg, hstr a]
    rintro ⟨_, hhead⟩
    cases hel : (r.contents.elems.foldl
        (fun (stripped : StdSet Tuple) t => stripped.insert (t.take col)) StdSet.empty).elems with
    | nil => simp [hel] at hhead
    | cons b bs =>
      rw [hel] at hhead
      simp only [List.head?_cons, Option.map_some', Option.some.injEq, List.isEmpty_iff] at hhead
      obtain ⟨u, hu, e⟩ := (hstr b).mp (by rw [hel]; exact List.mem_cons_self _ _)
      have hlen : b.length = col := by
        rw [e, List.length_take, hr u hu]
        simp only [getColumnCount, ge_iff_le, not_le] at h
        omega
      rw [hhead] at hlen
      simp at hlen
      omega

/-! ## C10: projection is idempotent -/

theorem project_eq (R : Relation) (s : Tuple) :
    R.project s =
      ((List.range (cleanedScheme R.scheme s).length).foldlM
        (projectStep (cleanedScheme R.scheme s)) R).bind
        (fun result => some (result.keepOnlyColumnsUntil (cleanedScheme R.scheme s).length)) := by
  unfold project
  rw [stripExtraColsFromScheme_eq]
  rfl

theorem project_loop_fixed (P : Relation) (hnd : P.scheme.Nodup) :
    ∀ k, k ≤ P.scheme.length → (List.range k).foldlM (projectStep P.scheme) P = some P
  | 0, _ => by simp
  | k + 1, hk => by
    have hlt : k < P.scheme.length := by omega
    rw [List.range_succ, List.foldlM_append, project_loop_fixed P hnd k (by omega)]
    simp only [Option.bind_eq_bind, Option.some_bind, List.foldlM_cons, List.foldlM_nil,
      Option.pure_def, Option.bind_some]
    unfold projectStep
    rw [vecAt_of_lt P.scheme k hlt, Option.bind_eq_bind, Option.some_bind,
      indexForColumnInScheme_of_mem P _ (List.getElem_mem _)]
    simp only [Option.bind_eq_bind, Option.some_bind, intToSize_natCast]
    rw [List.indexOf_getElem hnd k hlt]
    exact swapColumns_self P k hlt

theorem project_of_scheme_eq (P : Relation) (s : Tuple)
    (h : cleanedScheme P.scheme s = P.scheme) : P.project s = some P := by
  have hnd : P.scheme.Nodup := by
    rw [← h]
    exact nodup_cleanedScheme _ _
  rw [project_eq, h, project_loop_fixed P hnd _ (le_refl _)]
  simp only [Option.some_bind]
  rw [keepOnlyColumnsUntil_of_ge P _ (le_refl _)]

theorem project_scheme (R : Relation) (hR : R.WellFormed) (s : Tuple) :
    ∃ P, R.project s = some P ∧ P.name = R.name ∧ P.scheme = cleanedScheme R.scheme s := by
  obtain ⟨cur, p, hfold, hname, _, _, _, _, htake⟩ :=
    project_swaps R hR (cleanedScheme R.scheme s) (nodup_cleanedScheme _ _)
      (fun x hx => ((mem_cleanedScheme _ _ x).mp hx).2) (length_cleanedScheme_le _ _)
  refine ⟨cur.keepOnlyColumnsUntil (cleanedScheme R.scheme s).length, ?_, ?_, ?_⟩
  · rw [project_eq, hfold]
    rfl
  · rw [keepOnlyColumnsUntil_name, hname]
  · rw [keepOnlyColumnsUntil_scheme, htake]

/-- C10. For every well-formed relation `R` and target scheme `s`, `R.project(s)` returns
a relation `P`, and projecting `P` on `s` again returns a relation equal to `P` under
`operator==` (same name, scheme and content set). -/
theorem project_idempotent (R : Relation) (hR : R.WellFormed) (s : Tuple) :
    ∃ P, R.project s = some P ∧ ∃ P', P.project s = some P' ∧ P'.eq P = true := by
  obtain ⟨P, hP, _, hsch⟩ := project_scheme R hR s
  refine ⟨P, hP, P, project_of_scheme_eq P s ?_, by simp [eq]⟩
  rw [hsch, cleanedScheme_idem]

/-- C10 at the relation `{(1,2),(1,3)}` over `[A,B]` and the target `[B,Z,B]`: both
projections give scheme `[B]` and rows `{(2),(3)}`. -/
theorem project_idempotent_witness :
    (ofRows "R1" ["A", "B"] [["1", "2"], ["1", "3"]]).WellFormed ∧
    ((ofRows "R1" ["A", "B"] [["1", "2"], ["1", "3"]]).project ["B", "Z", "B"]).map
      (fun r => (r.scheme, r.contents.elems)) = some (["B"], [["2"], ["3"]]) ∧
    ∃ P, (ofRows "R1" ["A", "B"] [["1", "2"], ["1", "3"]]).project ["B", "Z", "B"] = some P ∧
      ∃ P', P.project ["B", "Z", "B"] = some P' ∧ P'.eq P = true :=
  ⟨by decide, by decide,
    project_idempotent (ofRows "R1" ["A", "B"] [["1", "2"], ["1", "3"]]) (by decide)
      ["B", "Z", "B"]⟩

/-! ## C2: projection -/

theorem map_take_index (scheme : Tuple) (hnd : scheme.Nodup) (p : List Nat)
    (hplt : ∀ i ∈ p, i < scheme.length) (tgt : Tuple) (n : Nat)
    (h : (p.map (fun i => (scheme[i]?).getD "")).take n = tgt) (t : Tuple) :
    (p.map (fun i => (t[i]?).getD "")).take n =
      tgt.map (fun x => (t[scheme.indexOf x]?).getD "") := by
  rw [← h, ← List.map_take, ← List.map_take, List.map_map]
  apply List.map_congr_left
  intro i hi
  have hlt : i < scheme.length := hplt i (List.mem_of_mem_take hi)
  simp only [Function.comp_apply, List.getElem?_eq_getElem hlt, Option.getD_some]
  rw [List.indexOf_getElem hnd i hlt]

/-- C2. For a well-formed relation `R` whose column names are pairwise distinct and a
target scheme `s` whose cleaned form `c` (duplicates removed keeping first occurrences,
then names that are not columns of `R` removed) is non-empty, `R.project(s)` returns a
relation with `R`'s name, scheme exactly `c`, and as rows exactly the tuples
`[t[idx(c[0])], t[idx(c[1])], ...]` for `t` a row of `R`, `idx(x)` being the position of
`x` in `R`'s scheme. -/
theorem project_spec (R : Relation) (hR : R.WellFormed) (hnd : R.scheme.Nodup) (s : Tuple)
    (hne : cleanedScheme R.scheme s ≠ []) :
    ∃ P, R.project s = some P ∧ P.name = R.name ∧ P.scheme = cleanedScheme R.scheme s ∧
      ∀ u, u ∈ P.contents ↔ ∃ t ∈ R.contents,
        u = (cleanedScheme R.scheme s).map (fun x => (t[R.scheme.indexOf x]?).getD "") := by
  obtain ⟨cur, p, hfold, hname, hplen, hplt, hsch, hcont, htake⟩ :=
    project_swaps R hR (cleanedScheme R.scheme s) (nodup_cleanedScheme _ _)
      (fun x hx => ((mem_cleanedScheme _ _ x).mp hx).2) (length_cleanedScheme_le _ _)
  have hwf : cur.WellFormed := by
    intro u hu
    obtain ⟨t, _, e⟩ := (hcont u).mp hu
    rw [e, hsch, List.length_map, List.length_map]
  have hpos : 0 < (cleanedScheme R.scheme s).length := List.length_pos.mpr hne
  refine ⟨cur.keepOnlyColumnsUntil (cleanedScheme R.scheme s).length, ?_, ?_, ?_, ?_⟩
  · rw [project_eq, hfold]
    rfl
  · rw [keepOnlyColumnsUntil_name, hname]
  · rw [keepOnlyColumnsUntil_scheme, htake]
  · intro u
    rw [StdSet.mem_def, mem_keepOnlyColumnsUntil cur hwf _ hpos u]
    rw [hsch] at htake
    constructor
    · rintro ⟨u', hu', e⟩
      obtain ⟨t, ht, e'⟩ := (hcont u').mp hu'
      refine ⟨t, ht, ?_⟩
      rw [e, e', map_take_index R.scheme hnd p hplt _ _ htake t]
    · rintro ⟨t, ht, e⟩
      refine ⟨p.map (fun i => (t[i]?).getD ""), (hcont _).mpr ⟨t, ht, rfl⟩, ?_⟩
      rw [e, map_take_index R.scheme hnd p hplt _ _ htake t]

/-- C2 at the scenario of the specification: projecting `{(1,2),(1,3)}` over `[A,B]` on
`[B]` gives scheme `[B]` and rows `{(2),(3)}`. -/
theorem project_spec_witness :
    (ofRows "R1" ["A", "B"] [["1", "2"], ["1", "3"]]).WellFormed ∧
    (ofRows "R1" ["A", "B"] [["1", "2"], ["1", "3"]]).scheme.Nodup ∧
    cleanedScheme (ofRows "R1" ["A", "B"] [["1", "2"], ["1", "3"]]).scheme ["B"] = ["B"] ∧
    ((ofRows "R1" ["A", "B"] [["1", "2"], ["1", "3"]]).project ["B"]).map
      (fun r => (r.name, r.scheme, r.contents.elems)) = some ("R1", ["B"], [["2"], ["3"]]) ∧
    ∃ P, (ofRows "R1" ["A", "B"] [["1", "2"], ["1", "3"]]).project ["B"] = some P ∧
      P.name = "R1" ∧ P.scheme = ["B"] ∧
      ∀ u, u ∈ P.contents ↔ ∃ t ∈ (ofRows "R1" ["A", "B"] [["1", "2"], ["1", "3"]]).contents,
        u = (["B"] : Tuple).map (fun x => (t[(["A", "B"] : Tuple).indexOf x]?).getD "") :=
  ⟨by decide, by decide, by decide, by decide,
    project_spec (ofRows "R1" ["A", "B"] [["1", "2"], ["1", "3"]]) (by decide) (by decide)
      ["B"] (by decide)⟩

end Relation

namespace Relation

/-! ## The column loop of `joinedWith` -/

theorem readVal_eq (scheme t : Tuple) (col : String) (ht : t.length = scheme.length) :
    (if (if col ∈ scheme then ((scheme.indexOf col : Nat) : Int) else -1) ≥ 0
      then vecAt t (if col ∈ scheme then ((scheme.indexOf col : Nat) : Int) else -1).toNat
      else some "") = some (colVal scheme t col) := by
  unfold colVal
  by_cases h : col ∈ scheme
  · have hlt : scheme.indexOf col < t.length := by
      rw [ht]
      exact List.indexOf_lt_length.mpr h
    simp only [h, if_true, ge_iff_le, Int.natCast_nonneg, Int.toNat_ofNat]
    rw [vecAt_of_lt t _ hlt, List.getElem?_eq_getElem hlt]
    rfl
  · simp [h]

theorem join_write (st : Tuple) (valid : Bool) (k : Nat) (col v1 v2 : String)
    (hk : k < st.length) (hcol : st[k]? = some col) :
    ∃ st', ((if (v1 = v2 ∧ v1 ≠ "") ∨ (v1 ≠ "" ∧ v2 = "")
          then vecSetAt st k v1 else some st).bind fun a =>
        (if (v1 = v2 ∧ v2 ≠ "") ∨ (v2 ≠ "" ∧ v1 = "")
          then vecSetAt a k v2 else some a).bind fun a =>
        some (a, if v1 ≠ v2 ∧ v1 ≠ "" ∧ v2 ≠ "" then false else valid)) =
        some (st', if v1 ≠ v2 ∧ v1 ≠ "" ∧ v2 ≠ "" then false else valid) ∧
      st'.length = st.length ∧ (∀ i, i ≠ k → st'[i]? = st[i]?) ∧
      (¬ (v1 ≠ v2 ∧ v1 ≠ "" ∧ v2 ≠ "") →
        st'[k]? = some (if v1 ≠ "" then v1 else if v2 ≠ "" then v2 else col)) := by
  by_cases e1 : v1 = ""
  · by_cases e2 : v2 = ""
    · subst e1 e2
      refine ⟨st, by simp, rfl, fun _ _ => rfl, fun _ => by simpa using hcol⟩
    · subst e1
      have e2' : ¬ "" = v2 := fun e => e2 e.symm
      refine ⟨st.set k v2, by simp [e2, e2', vecSetAt_of_lt st k v2 hk], by simp, ?_, ?_⟩
      · intro i hi
        rw [List.getElem?_set, if_neg (fun e => hi e.symm)]
      · intro _
        simp [e2, hk]
  · by_cases e2 : v2 = ""
    · subst e2
      refine ⟨st.set k v1, by simp [e1, vecSetAt_of_lt st k v1 hk], by simp, ?_, ?_⟩
      · intro i hi
        rw [List.getElem?_set, if_neg (fun e => hi e.symm)]
      · intro _
        simp [e1, hk]
    · by_cases e : v1 = v2
      · subst e
        refine ⟨(st.set k v1).set k v1, ?_, by simp, ?_, ?_⟩
        · simp [e1, vecSetAt_of_lt st k v1 hk,
            vecSetAt_of_lt (st.set k v1) k v1 (by simpa using hk)]
        · intro i hi
          rw [List.getElem?_set, if_neg (fun e => hi e.symm), List.getElem?_set,
            if_neg (fun e => hi e.symm)]
        · intro _
          simp [e1, hk]
      · refine ⟨st, by simp [e, e1, e2], rfl, fun _ _ => rfl, ?_⟩
        intro hno
        exact absurd ⟨e, e1, e2⟩ hno

theorem joinColumn_eq (L R : Relation) (t1 t2 : Tuple) (h1 : t1.length = L.scheme.length)
    (h2 : t2.length = R.scheme.length) (st : Tuple) (valid : Bool) (k : Nat) (col : String)
    (hcol : st[k]? = some col) :
    ∃ st', joinColumn L R t1 t2 (st, valid) k =
        some (st', if joinConflict L.scheme R.scheme t1 t2 col then false else valid) ∧
      st'.length = st.length ∧ (∀ i, i ≠ k → st'[i]? = st[i]?) ∧
      (¬ joinConflict L.scheme R.scheme t1 t2 col →
        st'[k]? = some (joinedValue L.scheme R.scheme t1 t2 col)) := by
  have hk : k < st.length := by
    by_contra h
    rw [List.getElem?_eq_none (by omega)] at hcol
    exact Option.noConfusion hcol
  have e0 : vecAt st k = some col := hcol
  unfold joinColumn
  simp only [e0, Option.bind_eq_bind, Option.some_bind, indexForColumnInScheme,
    indexForColumnInTuple_eq]
  rw [readVal_eq L.scheme t1 col h1]
  simp only [Option.some_bind]
  rw [readVal_eq R.scheme t2 col h2]
  simp only [Option.some_bind, Option.pure_def]
  exact join_write st valid k col (colVal L.scheme t1 col) (colVal R.scheme t2 col) hk hcol

theorem join_cols_loop (L R : Relation) (t1 t2 : Tuple) (h1 : t1.length = L.scheme.length)
    (h2 : t2.length = R.scheme.length) (newScheme : Tuple) :
    ∀ k, k ≤ newScheme.length →
      ∃ (st : Tuple) (valid : Bool),
        (List.range k).foldlM (joinColumn L R t1 t2) (newScheme, true) = some (st, valid) ∧
        st.length = newScheme.length ∧
        (∀ i, k ≤ i → st[i]? = newScheme[i]?) ∧
        (valid = true ↔ ∀ i, i < k → ∀ col, newScheme[i]? = some col →
          ¬ joinConflict L.scheme R.scheme t1 t2 col) ∧
        (valid = true → ∀ i, i < k →
          st[i]? = (newScheme[i]?).map (joinedValue L.scheme R.scheme t1 t2))
  | 0, _ => ⟨newScheme, true, by simp, rfl, fun _ _ => rfl, by simp, by simp⟩
  | k + 1, hk => by
    obtain ⟨st, valid, hfold, hlen, hrest, hvalid, hvals⟩ :=
      join_cols_loop L R t1 t2 h1 h2 newScheme k (by omega)
    have hkn : k < newScheme.length := by omega
    have hcol : st[k]? = some newScheme[k] := by
      rw [hrest k (le_refl _), List.getElem?_eq_getElem hkn]
    obtain ⟨st', hstep, hlen', hother, hat⟩ :=
      joinColumn_eq L R t1 t2 h1 h2 st valid k newScheme[k] hcol
    refine ⟨st', (if joinConflict L.scheme R.scheme t1 t2 newScheme[k] then false else valid),
      ?_, by rw [hlen', hlen], ?_, ?_, ?_⟩
    · rw [List.range_succ, List.foldlM_append, hfold]
      simp only [Option.bind_eq_bind, Option.some_bind, List.foldlM_cons, List.foldlM_nil,
        Option.pure_def, Option.bind_some]
      exact hstep
    · intro i hi
      rw [hother i (by omega)]
      exact hrest i (by omega)
    · constructor
      · intro hv i hi col hc
        by_cases hcf : joinConflict L.scheme R.scheme t1 t2 newScheme[k]
        · rw [if_pos hcf] at hv
          exact absurd hv Bool.false_ne_true
        · rw [if_neg hcf] at hv
          by_cases hik : i = k
          · subst hik
            rw [List.getElem?_eq_getElem hkn] at hc
            rw [← Option.some.inj hc]
            exact hcf
          · exact hvalid.mp hv i (by omega) col hc
      · intro hall
        have hcf : ¬ joinConflict L.scheme R.scheme t1 t2 newScheme[k] :=
          hall k (by omega) _ (List.getElem?_eq_getElem hkn)
        rw [if_neg hcf]
        exact hvalid.mpr (fun i hi col hc => hall i (by omega) col hc)
    · intro hv i hi
      by_cases hcf : joinConflict L.scheme R.scheme t1 t2 newScheme[k]
      · rw [if_pos hcf] at hv
        exact absurd hv Bool.false_ne_true
      · rw [if_neg hcf] at hv
        by_cases hik : i = k
        · subst hik
          rw [hat hcf, List.getElem?_eq_getElem hkn]
          rfl
        · rw [hother i hik]
          exact hvals hv i (by omega)

theorem join_cols (L R : Relation) (t1 t2 : Tuple) (h1 : t1.length = L.scheme.length)
    (h2 : t2.length = R.scheme.length) (newScheme : Tuple) :
    ∃ (st : Tuple) (valid : Bool),
      (List.range newScheme.length).foldlM (joinColumn L R t1 t2) (newScheme, true)
        = some (st, valid) ∧
      st.length = newScheme.length ∧
      (valid = true ↔ ∀ col ∈ newScheme, ¬ joinConflict L.scheme R.scheme t1 t2 col) ∧
      (valid = true → st = newScheme.map (joinedValue L.scheme R.scheme t1 t2)) := by
  obtain ⟨st, valid, hfold, hlen, _, hvalid, hvals⟩ :=
    join_cols_loop L R t1 t2 h1 h2 newScheme newScheme.length (le_refl _)
  refine ⟨st, valid, hfold, hlen, ?_, ?_⟩
  · rw [hvalid]
    constructor
    · intro h col hc
      obtain ⟨i, hi⟩ := List.mem_iff_getElem?.mp hc
      have hlt : i < newScheme.length := by
        by_contra hge
        rw [List.getElem?_eq_none (by omega)] at hi
        exact Option.noConfusion hi
      exact h i hlt col hi
    · intro h i _ col hc
      exact h col (List.mem_iff_getElem?.mpr ⟨i, hc⟩)
  · intro hv
    apply List.ext_getElem?
    intro i
    rw [List.getElem?_map]
    by_cases hi : i < newScheme.length
    · exact hvals hv i hi
    · rw [List.getElem?_eq_none (by omega), List.getElem?_eq_none (by omega)]
      rfl

end Relation

namespace Relation

/-! ## The pair loops of `joinedWith` -/

theorem joinPair_eq (L R : Relation) (newScheme t1 t2 : Tuple) (result : Relation)
    (hres : result.scheme = newScheme) (h1 : t1.length = L.scheme.length)
    (h2 : t2.length = R.scheme.length) :
    joinPair L R newScheme t1 result t2 =
      some (if ∀ col ∈ newScheme, ¬ joinConflict L.scheme R.scheme t1 t2 col
        then { result with contents :=
          result.contents.insert (newScheme.map (joinedValue L.scheme R.scheme t1 t2)) }
        else result) := by
  obtain ⟨st, valid, hfold, hlen, hvalid, hst⟩ := join_cols L R t1 t2 h1 h2 newScheme
  unfold joinPair
  rw [hfold]
  simp only [Option.bind_eq_bind, Option.some_bind, Option.pure_def]
  by_cases hall : ∀ col ∈ newScheme, ¬ joinConflict L.scheme R.scheme t1 t2 col
  · have hv : valid = true := hvalid.mpr hall
    rw [if_pos hall, hv, if_pos rfl, addTuple_of_length result st (by rw [hlen, hres]), hst hv]
  · have hv : ¬ valid = true := fun h => hall (hvalid.mp h)
    rw [if_neg hall, if_neg hv]

theorem join_inner (L R : Relation) (newScheme t1 : Tuple) (h1 : t1.length = L.scheme.length) :
    ∀ (l2 : List Tuple) (result : Relation), result.scheme = newScheme →
      (∀ t2 ∈ l2, t2.length = R.scheme.length) →
      ∃ r, l2.foldlM (joinPair L R newScheme t1) result = some r ∧
        r.name = result.name ∧ r.scheme = newScheme ∧
        ∀ u, u ∈ r.contents.elems ↔ u ∈ result.contents.elems ∨
          ∃ t2 ∈ l2, (∀ col ∈ newScheme, ¬ joinConflict L.scheme R.scheme t1 t2 col) ∧
            u = newScheme.map (joinedValue L.scheme R.scheme t1 t2)
  | [], result, hres, _ => ⟨result, by simp, rfl, hres, by simp⟩
  | t2 :: l2, result, hres, hl => by
    have h2 := hl t2 (List.mem_cons_self _ _)
    have hl' : ∀ t ∈ l2, t.length = R.scheme.length :=
      fun t ht => hl t (List.mem_cons_of_mem _ ht)
    rw [List.foldlM_cons, joinPair_eq L R newScheme t1 t2 result hres h1 h2]
    simp only [Option.bind_eq_bind, Option.some_bind]
    by_cases hall : ∀ col ∈ newScheme, ¬ joinConflict L.scheme R.scheme t1 t2 col
    · rw [if_pos hall]
      obtain ⟨r, hr, hn, hs, hmem⟩ := join_inner L R newScheme t1 h1 l2
        { result with contents :=
          result.contents.insert (newScheme.map (joinedValue L.scheme R.scheme t1 t2)) }
        hres hl'
      refine ⟨r, hr, hn, hs, ?_⟩
      intro u
      rw [hmem u, StdSet.mem_insert]
      constructor
      · rintro ((e | h) | ⟨t, ht, hc, e⟩)
        · exact Or.inr ⟨t2, List.mem_cons_self _ _, hall, e⟩
        · exact Or.inl h
        · exact Or.inr ⟨t, List.mem_cons_of_mem _ ht, hc, e⟩
      · rintro (h | ⟨t, ht, hc, e⟩)
        · exact Or.inl (Or.inr h)
        · rcases List.mem_cons.mp ht with e' | ht'
          · subst e'
            exact Or.inl (Or.inl e)
          · exact Or.inr ⟨t, ht', hc, e⟩
    · rw [if_neg hall]
      obtain ⟨r, hr, hn, hs, hmem⟩ := join_inner L R newScheme t1 h1 l2 result hres hl'
      refine ⟨r, hr, hn, hs, ?_⟩
      intro u
      rw [hmem u]
      constructor
      · rintro (h | ⟨t, ht, hc, e⟩)
        · exact Or.inl h
        · exact Or.inr ⟨t, List.mem_cons_of_mem _ ht, hc, e⟩
      · rintro (h | ⟨t, ht, hc, e⟩)
        · exact Or.inl h
        · rcases List.mem_cons.mp ht with e' | ht'
          · subst e'
            exact absurd hc hall
          · exact Or.inr ⟨t, ht', hc, e⟩

theorem join_outer (L R : Relation) (newScheme : Tuple) (l2 : List Tuple)
    (hl2 : ∀ t2 ∈ l2, t2.length = R.scheme.length) :
    ∀ (l1 : List Tuple) (result : Relation), result.scheme = newScheme →
      (∀ t1 ∈ l1, t1.length = L.scheme.length) →
      ∃ r, l1.foldlM (fun result t1 => l2.foldlM (joinPair L R newScheme t1) result) result
          = some r ∧
        r.name = result.name ∧ r.scheme = newScheme ∧
        ∀ u, u ∈ r.contents.elems ↔ u ∈ result.contents.elems ∨
          ∃ t1 ∈ l1, ∃ t2 ∈ l2,
            (∀ col ∈ newScheme, ¬ joinConflict L.scheme R.scheme t1 t2 col) ∧
            u = newScheme.map (joinedValue L.scheme R.scheme t1 t2)
  | [], result, hres, _ => ⟨result, by simp, rfl, hres, by simp⟩
  | t1 :: l1, result, hres, hl => by
    have h1 := hl t1 (List.mem_cons_self _ _)
    have hl' : ∀ t ∈ l1, t.length = L.scheme.length :=
      fun t ht => hl t (List.mem_cons_of_mem _ ht)
    obtain ⟨r0, hr0, hn0, hs0, hmem0⟩ := join_inner L R newScheme t1 h1 l2 result hres hl2
    obtain ⟨r, hr, hn, hs, hmem⟩ := join_outer L R newScheme l2 hl2 l1 r0 hs0 hl'
    rw [List.foldlM_cons, hr0]
    simp only [Option.bind_eq_bind, Option.some_bind]
    refine ⟨r, hr, by rw [hn, hn0], hs, ?_⟩
    intro u
    rw [hmem u, hmem0 u]
    constructor
    · rintro ((h | ⟨t2, ht2, hc, e⟩) | ⟨t, ht, t2, ht2, hc, e⟩)
      · exact Or.inl h
      · exact Or.inr ⟨t1, List.mem_cons_self _ _, t2, ht2, hc, e⟩
      · exact Or.inr ⟨t, List.mem_cons_of_mem _ ht, t2, ht2, hc, e⟩
    · rintro (h | ⟨t, ht, t2, ht2, hc, e⟩)
      · exact Or.inl (Or.inl h)
      · rcases List.mem_cons.mp ht with e' | ht'
        · subst e'
          exact Or.inl (Or.inr ⟨t2, ht2, hc, e⟩)
        · exact Or.inr ⟨t, ht', t2, ht2, hc, e⟩

theorem joinedWith_of_ne (L R : Relation) (hL : L.WellFormed) (hR : R.WellFormed)
    (hne : ¬ (L.name = R.name ∧ L.scheme = R.scheme ∧ L.contents.elems = R.contents.elems)) :
    ∃ J, L.joinedWith R = some J ∧ J.name = L.name ∧
      J.scheme = Tuple.combinedWith L.scheme R.scheme ∧
      ∀ u, u ∈ J.contents.elems ↔ ∃ t1 ∈ L.contents.elems, ∃ t2 ∈ R.contents.elems,
        (∀ col ∈ Tuple.combinedWith L.scheme R.scheme,
          ¬ joinConflict L.scheme R.scheme t1 t2 col) ∧
        u = (Tuple.combinedWith L.scheme R.scheme).map
          (joinedValue L.scheme R.scheme t1 t2) := by
  obtain ⟨r, hr, hn, hs, hmem⟩ := join_outer L R (Tuple.combinedWith L.scheme R.scheme)
    R.contents.elems hR L.contents.elems
    (Relation.new L.name (Tuple.combinedWith L.scheme R.scheme)) rfl hL
  refine ⟨r, ?_, hn, hs, ?_⟩
  · unfold joinedWith
    rw [if_neg hne]
    exact hr
  · intro u
    rw [hmem u]
    simp [new, StdSet.empty]

theorem joinedWith_of_eq (L R : Relation)
    (h : L.name = R.name ∧ L.scheme = R.scheme ∧ L.contents.elems = R.contents.elems) :
    L.joinedWith R = some L := by
  unfold joinedWith
  rw [if_pos h]

end Relation

namespace Relation

/-! ## C1: natural join -/

theorem combinedWith_fold :
    ∀ (l acc : List String), l.Nodup →
      l.foldl (fun acc col => if col ∈ acc then acc else acc ++ [col]) acc =
        acc ++ l.filter (fun x => x ∉ acc)
  | [], acc, _ => by simp
  | x :: xs, acc, hnd => by
    have hx : x ∉ xs := (List.nodup_cons.mp hnd).1
    have hxs : xs.Nodup := (List.nodup_cons.mp hnd).2
    rw [List.foldl_cons]
    by_cases h : x ∈ acc
    · rw [if_pos h, combinedWith_fold xs acc hxs]
      simp [List.filter_cons, h]
    · rw [if_neg h, combinedWith_fold xs (acc ++ [x]) hxs, List.filter_cons]
      simp only [h, not_false_eq_true, decide_True, if_true]
      rw [List.append_assoc, List.singleton_append]
      congr 2
      apply List.filter_congr
      intro y hy
      have hyx : y ≠ x := fun e => hx (e ▸ hy)
      simp [hyx]

theorem combinedWith_eq (s1 s2 : Tuple) (h : s2.Nodup) :
    Tuple.combinedWith s1 s2 = s1 ++ s2.filter (fun x => x ∉ s1) :=
  combinedWith_fold s2 s1 h

theorem getElem?_indexOf_eq_colVal (scheme t : Tuple) (col : String)
    (ht : t.length = scheme.length) (h : col ∈ scheme) :
    t[scheme.indexOf col]? = some (colVal scheme t col) := by
  have hlt : scheme.indexOf col < t.length := by
    rw [ht]
    exact List.indexOf_lt_length.mpr h
  simp [colVal, h, List.getElem?_eq_getElem hlt]

theorem colVal_ne_empty (scheme t : Tuple) (col : String) (ht : t.length = scheme.length)
    (hv : ∀ v ∈ t, v ≠ "") (h : col ∈ scheme) : colVal scheme t col ≠ "" := by
  have hget := getElem?_indexOf_eq_colVal scheme t col ht h
  exact hv _ (List.mem_iff_getElem?.mpr ⟨_, hget⟩)

theorem colVal_of_not_mem (scheme t : Tuple) (col : String) (h : col ∉ scheme) :
    colVal scheme t col = "" := by
  simp [colVal, h]

theorem map_indexOf_self (scheme t : Tuple) (hnd : scheme.Nodup)
    (ht : t.length = scheme.length) :
    scheme.map (fun x => (t[scheme.indexOf x]?).getD "") = t := by
  apply List.ext_getElem?
  intro i
  rw [List.getElem?_map]
  by_cases hi : i < scheme.length
  · rw [List.getElem?_eq_getElem hi, Option.map_some', List.indexOf_getElem hnd i hi,
      List.getElem?_eq_getElem (show i < t.length by omega)]
    rfl
  · rw [List.getElem?_eq_none (by omega), List.getElem?_eq_none (by omega)]
    rfl

theorem no_conflict_iff (s1 s2 t1 t2 : Tuple) (h1 : t1.length = s1.length)
    (h2 : t2.length = s2.length) (hv1 : ∀ v ∈ t1, v ≠ "") (hv2 : ∀ v ∈ t2, v ≠ "")
    (newScheme : Tuple) (hsub : ∀ x ∈ s1, x ∈ newScheme) :
    (∀ col ∈ newScheme, ¬ joinConflict s1 s2 t1 t2 col) ↔
      ∀ x, x ∈ s1 → x ∈ s2 → t1[s1.indexOf x]? = t2[s2.indexOf x]? := by
  constructor
  · intro h x hx1 hx2
    have hc := h x (hsub x hx1)
    rw [getElem?_indexOf_eq_colVal s1 t1 x h1 hx1, getElem?_indexOf_eq_colVal s2 t2 x h2 hx2]
    by_contra hne
    exact hc ⟨fun e => hne (by rw [e]), colVal_ne_empty s1 t1 x h1 hv1 hx1,
      colVal_ne_empty s2 t2 x h2 hv2 hx2⟩
  · intro h col _ hc
    obtain ⟨hne, hn1, hn2⟩ := hc
    have hx1 : col ∈ s1 := by
      by_contra hx
      exact hn1 (colVal_of_not_mem s1 t1 col hx)
    have hx2 : col ∈ s2 := by
      by_contra hx
      exact hn2 (colVal_of_not_mem s2 t2 col hx)
    have := h col hx1 hx2
    rw [getElem?_indexOf_eq_colVal s1 t1 col h1 hx1,
      getElem?_indexOf_eq_colVal s2 t2 col h2 hx2] at this
    exact hne (Option.some.inj this)

theorem map_joinedValue (s1 s2 t1 t2 : Tuple) (hnd : s1.Nodup) (h1 : t1.length = s1.length)
    (h2 : t2.length = s2.length) (hv1 : ∀ v ∈ t1, v ≠ "") (hv2 : ∀ v ∈ t2, v ≠ "") :
    (s1 ++ s2.filter (fun x => x ∉ s1)).map (joinedValue s1 s2 t1 t2) =
      t1 ++ (s2.filter (fun x => x ∉ s1)).map (fun x => (t2[s2.indexOf x]?).getD "") := by
  rw [List.map_append]
  congr 1
  · refine Eq.trans ?_ (map_indexOf_self s1 t1 hnd h1)
    apply List.map_congr_left
    intro x hx
    have hne := colVal_ne_empty s1 t1 x h1 hv1 hx
    have hget := getElem?_indexOf_eq_colVal s1 t1 x h1 hx
    simp only [joinedValue, hne, ne_eq, not_false_eq_true, if_true, hget, Option.getD_some]
  · apply List.map_congr_left
    intro x hx
    have hx2 : x ∈ s2 := List.mem_of_mem_filter hx
    have hx1 : x ∉ s1 := by simpa using (List.mem_filter.mp hx).2
    have hne := colVal_ne_empty s2 t2 x h2 hv2 hx2
    have hget := getElem?_indexOf_eq_colVal s2 t2 x h2 hx2
    simp only [joinedValue, colVal_of_not_mem s1 t1 x hx1, ne_eq, not_true_eq_false, if_false,
      hne, not_false_eq_true, if_true, hget, Option.getD_some]

/-- C1. For well-formed relations `L` and `R` whose schemes have pairwise distinct column
names and whose rows hold only non-empty strings, the result scheme
(`Tuple::combinedWith`) is `L`'s scheme followed by the columns of `R`'s scheme that are
not in `L`'s scheme, and `L.joinedWith(R)` returns a relation with `L`'s name, that
scheme, and as rows exactly the tuples `t1` followed by `t2`'s values at `R`'s right-only
columns, for rows `t1` of `L` and `t2` of `R` that hold the same value at every column
name the two schemes share. -/
theorem joinedWith_spec (L R : Relation) (hL : L.WellFormed) (hR : R.WellFormed)
    (hLn : L.scheme.Nodup) (hRn : R.scheme.Nodup)
    (hLv : ∀ t ∈ L.contents, ∀ v ∈ t, v ≠ "") (hRv : ∀ t ∈ R.contents, ∀ v ∈ t, v ≠ "") :
    Tuple.combinedWith L.scheme R.scheme =
      L.scheme ++ R.scheme.filter (fun x => x ∉ L.scheme) ∧
    ∃ J, L.joinedWith R = some J ∧ J.name = L.name ∧
      J.scheme = L.scheme ++ R.scheme.filter (fun x => x ∉ L.scheme) ∧
      ∀ u, u ∈ J.contents ↔ ∃ t1 ∈ L.contents, ∃ t2 ∈ R.contents,
        (∀ x, x ∈ L.scheme → x ∈ R.scheme →
          t1[L.scheme.indexOf x]? = t2[R.scheme.indexOf x]?) ∧
        u = t1 ++ (R.scheme.filter (fun x => x ∉ L.scheme)).map
          (fun x => (t2[R.scheme.indexOf x]?).getD "") := by
  refine ⟨combinedWith_eq L.scheme R.scheme hRn, ?_⟩
  by_cases heq : L.name = R.name ∧ L.scheme = R.scheme ∧ L.contents.elems = R.contents.elems
  · have hfil : R.scheme.filter (fun x => x ∉ L.scheme) = [] := by
      rw [heq.2.1]
      simp
    refine ⟨L, joinedWith_of_eq L R heq, rfl, by rw [hfil, List.append_nil], ?_⟩
    intro u
    rw [hfil]
    simp only [List.map_nil, List.append_nil]
    constructor
    · intro hu
      refine ⟨u, hu, u, ?_, ?_, rfl⟩
      · show u ∈ R.contents.elems
        rw [← heq.2.2]
        exact hu
      · intro x _ _
        rw [heq.2.1]
    · rintro ⟨t1, ht1, _, _, _, e⟩
      rw [e]
      exact ht1
  · obtain ⟨J, hJ, hn, hs, hmem⟩ := joinedWith_of_ne L R hL hR heq
    rw [combinedWith_eq L.scheme R.scheme hRn] at hs hmem
    refine ⟨J, hJ, hn, hs, ?_⟩
    intro u
    rw [StdSet.mem_def, hmem u]
    constructor
    · rintro ⟨t1, ht1, t2, ht2, hc, e⟩
      refine ⟨t1, ht1, t2, ht2, ?_, ?_⟩
      · exact (no_conflict_iff L.scheme R.scheme t1 t2 (hL t1 ht1) (hR t2 ht2) (hLv t1 ht1)
          (hRv t2 ht2) _ (fun x hx => List.mem_append_left _ hx)).mp hc
      · rw [e, map_joinedValue L.scheme R.scheme t1 t2 hLn (hL t1 ht1) (hR t2 ht2)
          (hLv t1 ht1) (hRv t2 ht2)]
    · rintro ⟨t1, ht1, t2, ht2, hc, e⟩
      refine ⟨t1, ht1, t2, ht2, ?_, ?_⟩
      · exact (no_conflict_iff L.scheme R.scheme t1 t2 (hL t1 ht1) (hR t2 ht2) (hLv t1 ht1)
          (hRv t2 ht2) _ (fun x hx => List.mem_append_left _ hx)).mpr hc
      · rw [e, map_joinedValue L.scheme R.scheme t1 t2 hLn (hL t1 ht1) (hR t2 ht2)
          (hLv t1 ht1) (hRv t2 ht2)]

/-- C1 at the scenario of the specification: `{(1,2),(1,3)}` over `[A,B]` joined with
`{(2,9),(5,9)}` over `[B,C]` has scheme `[A,B,C]` and the single row `(1,2,9)`. -/
theorem joinedWith_spec_witness :
    ((ofRows "R1" ["A", "B"] [["1", "2"], ["1", "3"]]).joinedWith
      (ofRows "R2" ["B", "C"] [["2", "9"], ["5", "9"]])).map
      (fun r => (r.name, r.scheme, r.contents.elems))
      = some ("R1", ["A", "B", "C"], [["1", "2", "9"]]) ∧
    (Tuple.combinedWith (ofRows "R1" ["A", "B"] [["1", "2"], ["1", "3"]]).scheme
        (ofRows "R2" ["B", "C"] [["2", "9"], ["5", "9"]]).scheme =
      (ofRows "R1" ["A", "B"] [["1", "2"], ["1", "3"]]).scheme ++
        (ofRows "R2" ["B", "C"] [["2", "9"], ["5", "9"]]).scheme.filter
          (fun x => x ∉ (ofRows "R1" ["A", "B"] [["1", "2"], ["1", "3"]]).scheme) ∧
    ∃ J, (ofRows "R1" ["A", "B"] [["1", "2"], ["1", "3"]]).joinedWith
        (ofRows "R2" ["B", "C"] [["2", "9"], ["5", "9"]]) = some J ∧
      J.name = (ofRows "R1" ["A", "B"] [["1", "2"], ["1", "3"]]).name ∧
      J.scheme = (ofRows "R1" ["A", "B"] [["1", "2"], ["1", "3"]]).scheme ++
        (ofRows "R2" ["B", "C"] [["2", "9"], ["5", "9"]]).scheme.filter
          (fun x => x ∉ (ofRows "R1" ["A", "B"] [["1", "2"], ["1", "3"]]).scheme) ∧
      ∀ u, u ∈ J.contents ↔
        ∃ t1 ∈ (ofRows "R1" ["A", "B"] [["1", "2"], ["1", "3"]]).contents,
        ∃ t2 ∈ (ofRows "R2" ["B", "C"] [["2", "9"], ["5", "9"]]).contents,
        (∀ x, x ∈ (ofRows "R1" ["A", "B"] [["1", "2"], ["1", "3"]]).scheme →
          x ∈ (ofRows "R2" ["B", "C"] [["2", "9"], ["5", "9"]]).scheme →
          t1[(ofRows "R1" ["A", "B"] [["1", "2"], ["1", "3"]]).scheme.indexOf x]? =
            t2[(ofRows "R2" ["B", "C"] [["2", "9"], ["5", "9"]]).scheme.indexOf x]?) ∧
        u = t1 ++ ((ofRows "R2" ["B", "C"] [["2", "9"], ["5", "9"]]).scheme.filter
          (fun x => x ∉ (ofRows "R1" ["A", "B"] [["1", "2"], ["1", "3"]]).scheme)).map
          (fun x =>
            (t2[(ofRows "R2" ["B", "C"] [["2", "9"], ["5", "9"]]).scheme.indexOf x]?).getD "")) :=
  ⟨by decide,
    joinedWith_spec (ofRows "R1" ["A", "B"] [["1", "2"], ["1", "3"]])
      (ofRows "R2" ["B", "C"] [["2", "9"], ["5", "9"]])
      (by decide) (by decide) (by decide) (by decide) (by decide) (by decide)⟩

end Relation

namespace Relation

/-! ## C4: equivalence selection -/

theorem filter_loop (scheme : Tuple) (f : Nat → Tuple → Option Bool) (P : Tuple → Prop)
    [DecidablePred P] :
    ∀ (l : List Tuple) (acc : Relation), acc.scheme = scheme →
      (∀ t ∈ l, t.length = scheme.length ∧ f scheme.length t = some (decide (P t))) →
      ∃ r, l.foldlM (fun result t => do
          let hasMatch ← f result.getColumnCount t
          pure (if hasMatch then (result.addTuple t).2 else result)) acc = some r ∧
        r.name = acc.name ∧ r.scheme = scheme ∧
        ∀ u, u ∈ r.contents.elems ↔ u ∈ acc.contents.elems ∨ (u ∈ l ∧ P u)
  | [], acc, hs, _ => ⟨acc, by simp, rfl, hs, by simp⟩
  | t :: l, acc, hs, hl => by
    obtain ⟨ht, hf⟩ := hl t (List.mem_cons_self _ _)
    have hl' : ∀ u ∈ l, u.length = scheme.length ∧ f scheme.length u = some (decide (P u)) :=
      fun u hu => hl u (List.mem_cons_of_mem _ hu)
    rw [List.foldlM_cons]
    have hcount : acc.getColumnCount = scheme.length := by rw [getColumnCount, hs]
    rw [hcount, hf]
    simp only [Option.pure_def, Option.bind_eq_bind, Option.some_bind]
    by_cases hm : P t
    · rw [decide_eq_true hm, if_pos rfl, addTuple_of_length acc t (by rw [ht, hs])]
      obtain ⟨r, hr, hn, hsch, hmem⟩ := filter_loop scheme f P l
        { acc with contents := acc.contents.insert t } hs hl'
      refine ⟨r, hr, hn, hsch, ?_⟩
      intro u
      rw [hmem u, StdSet.mem_insert]
      constructor
      · rintro ((e | h) | ⟨h1, h2⟩)
        · subst e
          exact Or.inr ⟨List.mem_cons_self _ _, hm⟩
        · exact Or.inl h
        · exact Or.inr ⟨List.mem_cons_of_mem _ h1, h2⟩
      · rintro (h | ⟨h1, h2⟩)
        · exact Or.inl (Or.inr h)
        · rcases List.mem_cons.mp h1 with e | h1'
          · exact Or.inl (Or.inl e)
          · exact Or.inr ⟨h1', h2⟩
    · rw [decide_eq_false hm]
      simp only [Bool.false_eq_true, if_false]
      obtain ⟨r, hr, hn, hsch, hmem⟩ := filter_loop scheme f P l acc hs hl'
      refine ⟨r, hr, hn, hsch, ?_⟩
      intro u
      rw [hmem u]
      constructor
      · rintro (h | ⟨h1, h2⟩)
        · exact Or.inl h
        · exact Or.inr ⟨List.mem_cons_of_mem _ h1, h2⟩
      · rintro (h | ⟨h1, h2⟩)
        · exact Or.inl h
        · rcases List.mem_cons.mp h1 with e | h1'
          · subst e
            exact absurd h2 hm
          · exact Or.inr ⟨h1', h2⟩

theorem equivMatch_locked (n : Nat) (t : Tuple) (ht : t.length = n) (w : String)
    (hw : w ≠ "LexerV1.INVALID") :
    ∀ cols : List Nat,
      equivMatch n t cols w = some (decide (∀ col ∈ cols, col < n → t[col]? = some w))
  | [] => by simp [equivMatch]
  | col :: rest => by
    unfold equivMatch
    by_cases hc : col ≥ n
    · rw [if_pos hc, equivMatch_locked n t ht w hw rest]
      have : ¬ col < n := by omega
      simp [this]
    · rw [if_neg hc, if_neg hw]
      have hlt : col < t.length := by omega
      have hlt' : col < n := by omega
      rw [vecAt_of_lt t col hlt]
      simp only [Option.pure_def, Option.bind_eq_bind, Option.some_bind]
      by_cases hv : t[col] = w
      · simp [hv, equivMatch_locked n t ht w hw rest, hlt', List.getElem?_eq_getElem hlt]
      · simp [hv, hlt', List.getElem?_eq_getElem hlt]

theorem equivMatch_start (n : Nat) (t : Tuple) (ht : t.length = n)
    (hv : ∀ v ∈ t, v ≠ "LexerV1.INVALID") :
    ∀ cols : List Nat,
      equivMatch n t cols "LexerV1.INVALID" = some (decide (sameValueAt n t cols))
  | [] => by simp [equivMatch, sameValueAt]
  | col :: rest => by
    unfold equivMatch
    by_cases hc : col ≥ n
    · rw [if_pos hc, equivMatch_start n t ht hv rest]
      have hnot : ¬ col < n := by omega
      congr 2
      unfold sameValueAt
      apply propext
      constructor
      · intro h a ha b hb han hbn
        rcases List.mem_cons.mp ha with e | ha'
        · subst e
          exact absurd han hnot
        · rcases List.mem_cons.mp hb with e | hb'
          · subst e
            exact absurd hbn hnot
          · exact h a ha' b hb' han hbn
      · intro h a ha b hb han hbn
        exact h a (List.mem_cons_of_mem _ ha) b (List.mem_cons_of_mem _ hb) han hbn
    · rw [if_neg hc, if_pos rfl]
      have hlt : col < t.length := by omega
      have hlt' : col < n := by omega
      rw [vecAt_of_lt t col hlt]
      simp only [Option.pure_def, Option.bind_eq_bind, Option.some_bind, ne_eq,
        not_true_eq_false, if_false]
      rw [equivMatch_locked n t ht t[col] (hv _ (List.getElem_mem _)) rest]
      congr 2
      unfold sameValueAt
      apply propext
      constructor
      · intro h a ha b hb han hbn
        have hcol : t[col]? = some t[col] := List.getElem?_eq_getElem hlt
        have key : ∀ x, x ∈ col :: rest → x < n → t[x]? = some t[col] := by
          intro x hx hxn
          rcases List.mem_cons.mp hx with e | hx'
          · rw [e]
            exact hcol
          · exact h x hx' hxn
        rw [key a ha han, key b hb hbn]
      · intro h x hx hxn
        rw [h x (List.mem_cons_of_mem _ hx) col (List.mem_cons_self _ _) hxn hlt']
        exact List.getElem?_eq_getElem hlt

theorem selectEquiv_loop (R : Relation) (hR : R.WellFormed)
    (hv : ∀ t ∈ R.contents.elems, ∀ v ∈ t, v ≠ "LexerV1.INVALID") :
    ∀ (Q : List (List Nat)) (result : Relation), result.scheme = R.scheme →
      (∀ k ∈ Q, k ≠ []) →
      ∃ r, selectEquivLoop R Q result = some r ∧ r.name = result.name ∧
        r.scheme = R.scheme ∧
        ∀ u, u ∈ r.contents.elems ↔ u ∈ result.contents.elems ∨
          (u ∈ R.contents.elems ∧ ∃ k ∈ Q, sameValueAt R.scheme.length u k)
  | [], result, hs, _ => ⟨result, rfl, rfl, hs, by simp⟩
  | k :: Q, result, hs, hQ => by
    have hk : k ≠ [] := hQ k (List.mem_cons_self _ _)
    have hQ' : ∀ k' ∈ Q, k' ≠ [] := fun k' hk' => hQ k' (List.mem_cons_of_mem _ hk')
    obtain ⟨r0, hr0, hn0, hs0, hmem0⟩ := filter_loop R.scheme
      (fun n t => equivMatch n t k "LexerV1.INVALID")
      (fun t => sameValueAt R.scheme.length t k) R.contents.elems result hs
      (fun t ht => ⟨hR t ht, equivMatch_start _ t (hR t ht) (hv t ht) k⟩)
    obtain ⟨r, hr, hn, hsch, hmem⟩ := selectEquiv_loop R hR hv Q r0 hs0 hQ'
    unfold selectEquivLoop
    rw [if_neg (by simpa using hk), hr0]
    simp only [Option.bind_eq_bind, Option.some_bind]
    refine ⟨r, hr, by rw [hn, hn0], hsch, ?_⟩
    intro u
    rw [hmem u, hmem0 u]
    constructor
    · rintro ((h | ⟨h1, h2⟩) | ⟨h1, k', hk', h2⟩)
      · exact Or.inl h
      · exact Or.inr ⟨h1, k, List.mem_cons_self _ _, h2⟩
      · exact Or.inr ⟨h1, k', List.mem_cons_of_mem _ hk', h2⟩
    · rintro (h | ⟨h1, k', hk', h2⟩)
      · exact Or.inl (Or.inl h)
      · rcases List.mem_cons.mp hk' with e | hk''
        · subst e
          exact Or.inl (Or.inr ⟨h1, h2⟩)
        · exact Or.inr ⟨h1, k', hk'', h2⟩

/-- C4 holds of the code whenever no stored value is the sentinel string
`"LexerV1.INVALID"`: for such a well-formed relation and classes none of which is empty,
the rows kept are exactly the rows satisfying some class, and name and scheme are kept. -/
theorem selectEquiv_of_no_sentinel (R : Relation) (hR : R.WellFormed)
    (hv : ∀ t ∈ R.contents, ∀ v ∈ t, v ≠ "LexerV1.INVALID")
    (Q : List (List Nat)) (hQ : ∀ k ∈ Q, k ≠ []) :
    ∃ r, R.selectEquiv Q = some r ∧ r.name = R.name ∧ r.scheme = R.scheme ∧
      ∀ t, t ∈ r.contents ↔
        (t ∈ R.contents ∧ ∃ k ∈ Q, sameValueAt R.getColumnCount t k) := by
  obtain ⟨r, hr, hn, hs, hmem⟩ := selectEquiv_loop R hR hv Q
    (Relation.new R.name R.scheme) rfl hQ
  refine ⟨r, hr, hn, hs, ?_⟩
  intro t
  have := hmem t
  simp only [new, StdSet.empty, List.not_mem_nil, false_or] at this
  exact this

/-- C4 fails on the code at a stored value equal to the sentinel: in the well-formed
relation over `[A,B]` with the single row `("LexerV1.INVALID", "x")`, the class `[0,1]`
has both indices in range and the two values differ, yet `select` keeps the row. -/
theorem selectEquiv_sentinel :
    (ofRows "R" ["A", "B"] [["LexerV1.INVALID", "x"]]).WellFormed ∧
    ¬ sameValueAt (ofRows "R" ["A", "B"] [["LexerV1.INVALID", "x"]]).getColumnCount
      ["LexerV1.INVALID", "x"] [0, 1] ∧
    ((ofRows "R" ["A", "B"] [["LexerV1.INVALID", "x"]]).selectEquiv [[0, 1]]).map
      (fun r => r.contents.elems) = some [["LexerV1.INVALID", "x"]] := by
  refine ⟨by decide, ?_, by decide⟩
  intro h
  have := h 0 (by simp) 1 (by simp) (by decide) (by decide)
  simp at this

end Relation

namespace Relation

/-! ## C12: the self-join shortcut -/

/-- C12. For relations `R` and `S` equal under `operator==`, `R.joinedWith(S)` returns a
relation equal to `R` under `operator==` (it is `R` itself), whatever strings the rows
hold, the empty string included. -/
theorem joinedWith_self (R S : Relation) (h : R.eq S = true) :
    ∃ J, R.joinedWith S = some J ∧ J = R ∧ J.eq R = true := by
  have h' : R.name = S.name ∧ R.scheme = S.scheme ∧ R.contents.elems = S.contents.elems := by
    simpa [eq, and_assoc] using h
  exact ⟨R, joinedWith_of_eq R S h', rfl, by simp [eq]⟩

/-- C12 at the relation over `[A,B]` with the rows `("", "1")` and `("2", "")`, joined
with an equal relation built separately. -/
theorem joinedWith_self_witness :
    (ofRows "R" ["A", "B"] [["", "1"], ["2", ""]]).eq
      (ofRows "R" ["A", "B"] [["2", ""], ["", "1"]]) = true ∧
    ∃ J, (ofRows "R" ["A", "B"] [["", "1"], ["2", ""]]).joinedWith
        (ofRows "R" ["A", "B"] [["2", ""], ["", "1"]]) = some J ∧
      J = ofRows "R" ["A", "B"] [["", "1"], ["2", ""]] ∧
      J.eq (ofRows "R" ["A", "B"] [["", "1"], ["2", ""]]) = true :=
  ⟨by decide, joinedWith_self _ _ (by decide)⟩

/-! ## Equivalence selection on arbitrary classes -/

theorem equivMatch_total (n : Nat) (t : Tuple) (ht : t.length = n) :
    ∀ (cols : List Nat) (val : String), ∃ b, equivMatch n t cols val = some b
  | [], _ => ⟨true, rfl⟩
  | col :: rest, val => by
    unfold equivMatch
    by_cases hc : col ≥ n
    · rw [if_pos hc]
      exact equivMatch_total n t ht rest val
    · rw [if_neg hc]
      have hlt : col < t.length := by omega
      rw [vecAt_of_lt t col hlt]
      by_cases hs : val = "LexerV1.INVALID"
      · rw [if_pos hs]
        simp only [Option.pure_def, Option.bind_eq_bind, Option.some_bind, ne_eq,
          not_true_eq_false, if_false]
        exact equivMatch_total n t ht rest _
      · rw [if_neg hs]
        simp only [Option.pure_def, Option.bind_eq_bind, Option.some_bind]
        by_cases hv : t[col] = val
        · rw [if_neg (by simpa using hv)]
          exact equivMatch_total n t ht rest _
        · rw [if_pos hv]
          exact ⟨false, rfl⟩

theorem equivMatch_out_of_range (n : Nat) (t : Tuple) :
    ∀ (cols : List Nat) (val : String), (∀ col ∈ cols, n ≤ col) →
      equivMatch n t cols val = some true
  | [], _, _ => rfl
  | col :: rest, val, h => by
    unfold equivMatch
    rw [if_pos (h col (List.mem_cons_self _ _))]
    exact equivMatch_out_of_range n t rest val (fun x hx => h x (List.mem_cons_of_mem _ hx))

theorem equivMatch_decide (n : Nat) (t : Tuple) (ht : t.length = n) (cols : List Nat) :
    equivMatch n t cols "LexerV1.INVALID" =
      some (decide (equivMatch n t cols "LexerV1.INVALID" = some true)) := by
  obtain ⟨b, hb⟩ := equivMatch_total n t ht cols "LexerV1.INVALID"
  rw [hb]
  cases b <;> simp

theorem selectEquivLoop_general (R : Relation) (hR : R.WellFormed) :
    ∀ (Q : List (List Nat)) (result : Relation), result.name = R.name →
      result.scheme = R.scheme →
      (∀ u ∈ result.contents.elems, u ∈ R.contents.elems) →
      ∃ r, selectEquivLoop R Q result = some r ∧ r.name = R.name ∧ r.scheme = R.scheme ∧
        (∀ u ∈ r.contents.elems, u ∈ R.contents.elems) ∧
        ((∃ k ∈ Q, k = []) → r.contents = R.contents)
  | [], result, hn, hs, hsub => ⟨result, rfl, hn, hs, hsub, by simp⟩
  | k :: Q, result, hn, hs, hsub => by
    unfold selectEquivLoop
    by_cases hk : k = []
    · subst hk
      rw [if_pos (show ([] : List Nat).isEmpty = true from rfl)]
      exact ⟨_, rfl, hn, hs, fun u hu => hu, fun _ => rfl⟩
    · rw [if_neg (by simpa using hk)]
      obtain ⟨r0, hr0, hn0, hs0, hmem0⟩ := filter_loop R.scheme
        (fun n t => equivMatch n t k "LexerV1.INVALID")
        (fun t => equivMatch R.scheme.length t k "LexerV1.INVALID" = some true)
        R.contents.elems result hs
        (fun t ht => ⟨hR t ht, equivMatch_decide _ t (hR t ht) k⟩)
      obtain ⟨r, hr, hn', hs', hsub', hall⟩ := selectEquivLoop_general R hR Q r0
        (by rw [hn0, hn]) hs0 (fun u hu => by
          rcases (hmem0 u).mp hu with h | h
          · exact hsub u h
          · exact h.1)
      rw [hr0]
      simp only [Option.bind_eq_bind, Option.some_bind]
      refine ⟨r, hr, hn', hs', hsub', ?_⟩
      rintro ⟨k', hk', e⟩
      rcases List.mem_cons.mp hk' with e' | hk''
      · exact absurd (e' ▸ e) hk
      · exact hall ⟨k', hk'', e⟩

theorem selectEquiv_general (R : Relation) (hR : R.WellFormed) (Q : List (List Nat)) :
    ∃ r, R.selectEquiv Q = some r ∧ r.name = R.name ∧ r.scheme = R.scheme ∧
      (∀ u ∈ r.contents.elems, u ∈ R.contents.elems) ∧
      ((∃ k ∈ Q, k = []) → r.contents = R.contents) :=
  selectEquivLoop_general R hR Q (Relation.new R.name R.scheme) rfl rfl
    (fun u hu => by simp [new, StdSet.empty] at hu)

/-! ## C15: an empty class selects everything -/

/-- C15. For a well-formed relation `R` and a list `Q` of equivalence classes that
contains an empty class, `R.select(Q)` returns a relation with `R`'s name, `R`'s scheme
and exactly `R`'s content set, whatever classes precede or follow the empty one. -/
theorem selectEquiv_empty_class (R : Relation) (hR : R.WellFormed) (Q : List (List Nat))
    (hQ : ∃ k ∈ Q, k = []) :
    ∃ r, R.selectEquiv Q = some r ∧ r.name = R.name ∧ r.scheme = R.scheme ∧
      r.contents = R.contents := by
  obtain ⟨r, hr, hn, hs, _, hall⟩ := selectEquiv_general R hR Q
  exact ⟨r, hr, hn, hs, hall hQ⟩

/-- C15 at the relation `{(1,2),(3,3)}` over `[A,B]` and the classes `[0,1]`, `[]`,
`[0,1]`: both rows are kept. -/
theorem selectEquiv_empty_class_witness :
    (ofRows "R" ["A", "B"] [["1", "2"], ["3", "3"]]).WellFormed ∧
    ((ofRows "R" ["A", "B"] [["1", "2"], ["3", "3"]]).selectEquiv [[0, 1], [], [0, 1]]).map
      (fun r => r.contents.elems) = some [["1", "2"], ["3", "3"]] ∧
    ∃ r, (ofRows "R" ["A", "B"] [["1", "2"], ["3", "3"]]).selectEquiv [[0, 1], [], [0, 1]]
        = some r ∧
      r.name = (ofRows "R" ["A", "B"] [["1", "2"], ["3", "3"]]).name ∧
      r.scheme = (ofRows "R" ["A", "B"] [["1", "2"], ["3", "3"]]).scheme ∧
      r.contents = (ofRows "R" ["A", "B"] [["1", "2"], ["3", "3"]]).contents :=
  ⟨by decide, by decide,
    selectEquiv_empty_class (ofRows "R" ["A", "B"] [["1", "2"], ["3", "3"]]) (by decide)
      [[0, 1], [], [0, 1]] ⟨[], by simp, rfl⟩⟩

/-! ## C14: a class with only out-of-range indices -/

/-- C14, as stated, fails: in the well-formed relation over `[A]` with the row `(1)`, the
non-empty class `[5]` has only out-of-range indices, and `select` keeps the row. -/
theorem selectEquiv_out_of_range_counterexample :
    (ofRows "R" ["A"] [["1"]]).WellFormed ∧ ([5] : List Nat) ≠ [] ∧
    (∀ col ∈ ([5] : List Nat), (ofRows "R" ["A"] [["1"]]).getColumnCount ≤ col) ∧
    ((ofRows "R" ["A"] [["1"]]).selectEquiv [[5]]).map (fun r => r.contents.elems)
      = some [["1"]] := by
  decide

/-- C14, amended. For a well-formed relation `R` and a non-empty class `k` all of whose
indices are at or beyond the column count, `R.select([k])` returns a relation with `R`'s
name and scheme and exactly `R`'s content set: every row is kept. -/
theorem selectEquiv_out_of_range (R : Relation) (hR : R.WellFormed) (k : List Nat)
    (hk : k ≠ []) (hout : ∀ col ∈ k, R.getColumnCount ≤ col) :
    ∃ r, R.selectEquiv [k] = some r ∧ r.name = R.name ∧ r.scheme = R.scheme ∧
      r.contents = R.contents := by
  obtain ⟨r0, hr0, hn0, hs0, hmem0⟩ := filter_loop R.scheme
    (fun n t => equivMatch n t k "LexerV1.INVALID") (fun _ => True)
    R.contents.elems (Relation.new R.name R.scheme) rfl
    (fun t ht => ⟨hR t ht, by
      show equivMatch R.scheme.length t k "LexerV1.INVALID" = some (decide True)
      rw [equivMatch_out_of_range R.scheme.length t k _ hout]
      rfl⟩)
  refine ⟨r0, ?_, hn0, hs0, ?_⟩
  · unfold selectEquiv selectEquivLoop
    rw [if_neg (by simpa using hk), hr0]
    rfl
  · apply StdSet.ext
    intro u
    rw [hmem0 u]
    simp [new, StdSet.empty]

/-- C14, amended, at the relation `{(1),(2)}` over `[A]` and the class `[5, 7]`. -/
theorem selectEquiv_out_of_range_witness :
    (ofRows "R" ["A"] [["1"], ["2"]]).WellFormed ∧
    ∃ r, (ofRows "R" ["A"] [["1"], ["2"]]).selectEquiv [[5, 7]] = some r ∧
      r.name = (ofRows "R" ["A"] [["1"], ["2"]]).name ∧
      r.scheme = (ofRows "R" ["A"] [["1"], ["2"]]).scheme ∧
      r.contents = (ofRows "R" ["A"] [["1"], ["2"]]).contents :=
  ⟨by decide,
    selectEquiv_out_of_range (ofRows "R" ["A"] [["1"], ["2"]]) (by decide) [5, 7]
      (by decide) (by decide)⟩

end Relation

namespace Relation

/-! ## C20: `swapColumns` with clamping -/

theorem swapColumns_clamp (R : Relation) (hn : 1 ≤ R.scheme.length) (i j : Nat) :
    R.swapColumns i j =
      R.swapColumns (min i (R.scheme.length - 1)) (min j (R.scheme.length - 1)) := by
  have hp : sizePred R.scheme.length = R.scheme.length - 1 := by
    unfold sizePred
    rw [if_pos (by omega)]
  have e : ∀ x, (if R.scheme.length ≤ x then sizePred R.scheme.length else x)
      = min x (R.scheme.length - 1) := by
    intro x
    rw [hp]
    by_cases hx : R.scheme.length ≤ x
    · rw [if_pos hx]
      omega
    · rw [if_neg hx]
      omega
  have e' : ∀ x, min (min x (R.scheme.length - 1)) (R.scheme.length - 1)
      = min x (R.scheme.length - 1) := by
    intro x
    omega
  unfold swapColumns
  simp only [getColumnCount, ge_iff_le, e, e']

/-- C20. For a well-formed relation `R` with `n ≥ 1` columns and indices `i`, `j`, let
`i' = min(i, n-1)` and `j' = min(j, n-1)`. `R.swapColumns(i, j)` returns a relation with
`R`'s name, whose scheme is `R`'s scheme with the entries at `i'` and `j'` exchanged and
whose rows are the rows of `R` with the values at `i'` and `j'` exchanged; exchanging
leaves the length and every other position of a vector as it was, and when `i' = j'` the
relation is unchanged. -/
theorem swapColumns_clamped (R : Relation) (hR : R.WellFormed) (hn : 1 ≤ R.getColumnCount)
    (i j : Nat) :
    ∃ r, R.swapColumns i j = some r ∧ r.name = R.name ∧
      r.scheme = listSwap R.scheme (min i (R.getColumnCount - 1))
        (min j (R.getColumnCount - 1)) ∧
      (∀ u, u ∈ r.contents ↔ ∃ t ∈ R.contents,
        u = listSwap t (min i (R.getColumnCount - 1)) (min j (R.getColumnCount - 1))) ∧
      (∀ v : Tuple, v.length = R.getColumnCount →
        (listSwap v (min i (R.getColumnCount - 1)) (min j (R.getColumnCount - 1))).length
          = v.length ∧
        ∀ m, (listSwap v (min i (R.getColumnCount - 1)) (min j (R.getColumnCount - 1)))[m]? =
          if m = min j (R.getColumnCount - 1) then v[min i (R.getColumnCount - 1)]?
          else if m = min i (R.getColumnCount - 1) then v[min j (R.getColumnCount - 1)]?
          else v[m]?) ∧
      (min i (R.getColumnCount - 1) = min j (R.getColumnCount - 1) → r = R) := by
  unfold getColumnCount at hn ⊢
  have hi : min i (R.scheme.length - 1) < R.scheme.length := by omega
  have hj : min j (R.scheme.length - 1) < R.scheme.length := by omega
  obtain ⟨r, hr, hname, hsch, hcont⟩ := swapColumns_of_lt R hR _ _ hi hj
  rw [← swapColumns_clamp R hn i j] at hr
  refine ⟨r, hr, hname, hsch, hcont, ?_, ?_⟩
  · intro v hv
    refine ⟨listSwap_length v _ _, ?_⟩
    intro m
    exact getElem?_listSwap v _ _ m (by omega) (by omega)
  · intro hij
    have hself := swapColumns_self R _ hi
    rw [swapColumns_clamp R hn i j, ← hij] at hr
    rw [hself] at hr
    exact (Option.some.inj hr).symm

/-- C20 at the relation `{(1,2,3)}` over `[A,B,C]` with the indices `0` and `99`: the
second index is clamped to the last column, giving scheme `[C,B,A]` and row `(3,2,1)`. -/
theorem swapColumns_clamped_witness :
    (ofRows "R" ["A", "B", "C"] [["1", "2", "3"]]).WellFormed ∧
    ((ofRows "R" ["A", "B", "C"] [["1", "2", "3"]]).swapColumns 0 99).map
      (fun r => (r.name, r.scheme, r.contents.elems))
      = some ("R", ["C", "B", "A"], [["3", "2", "1"]]) ∧
    ∃ r, (ofRows "R" ["A", "B", "C"] [["1", "2", "3"]]).swapColumns 0 99 = some r ∧
      r.name = "R" ∧ r.scheme = listSwap ["A", "B", "C"] 0 2 :=
  ⟨by decide, by decide,
    (swapColumns_clamped (ofRows "R" ["A", "B", "C"] [["1", "2", "3"]]) (by decide)
      (by decide) 0 99).imp (fun _ h => ⟨h.1, h.2.1, h.2.2.1⟩)⟩

/-! ## C13: projection to zero columns -/

theorem cleanedScheme_of_disjoint (scheme s : Tuple) (h : ∀ x ∈ s, x ∉ scheme) :
    cleanedScheme scheme s = [] := by
  unfold cleanedScheme
  rw [List.filter_eq_nil_iff]
  intro x hx
  simpa using h x ((mem_dedupFirst x s).mp hx)

theorem keepOnlyColumnsUntil_zero (r : Relation) (h : r.scheme ≠ []) :
    (r.keepOnlyColumnsUntil 0).scheme = [] ∧ (r.keepOnlyColumnsUntil 0).contents.elems = [] := by
  have hpos : 0 < r.scheme.length := List.length_pos.mpr h
  have hstr : ∀ b, b ∈ (r.contents.elems.foldl
      (fun (stripped : StdSet Tuple) t => stripped.insert (t.take 0)) StdSet.empty).elems →
      b = [] := by
    intro b hb
    rw [StdSet.mem_foldl_insert] at hb
    simp only [StdSet.empty, List.not_mem_nil, false_or, List.take_zero] at hb
    obtain ⟨_, _, e⟩ := hb
    exact e.symm
  unfold keepOnlyColumnsUntil
  rw [getColumnCount, if_neg (show ¬ 0 ≥ r.scheme.length by omega)]
  refine ⟨rfl, ?_⟩
  simp only
  split
  · rfl
  · rename_i hcond
    cases hel : (r.contents.elems.foldl
        (fun (stripped : StdSet Tuple) t => stripped.insert (t.take 0)) StdSet.empty).elems with
    | nil => rfl
    | cons b bs =>
      exfalso
      apply hcond
      have hb : b = [] := hstr b (by rw [hel]; exact List.mem_cons_self _ _)
      have hnd := StdSet.nodup_of_sorted (r.contents.elems.foldl
        (fun (stripped : StdSet Tuple) t => stripped.insert (t.take 0)) StdSet.empty).sorted
      rw [hel] at hnd
      have hbs : bs = [] := by
        cases bs with
        | nil => rfl
        | cons b' bs' =>
          exfalso
          have hb' : b' = [] := hstr b' (by
            rw [hel]
            exact List.mem_cons_of_mem _ (List.mem_cons_self _ _))
          have := (List.nodup_cons.mp hnd).1
          apply this
          rw [hb, hb']
          exact List.mem_cons_self _ _
      constructor
      · rw [StdSet.size, hel, hbs]
        rfl
      · rw [hel, hb]
        rfl

/-- C13, as stated, fails: the well-formed relation with no columns holding the
zero-length row is returned unchanged by `project`, so the result contains that row. -/
theorem project_none_counterexample :
    (ofRows "Z" [] [[]]).WellFormed ∧
    (∀ x ∈ (["A"] : Tuple), x ∉ (ofRows "Z" [] [[]]).scheme) ∧
    ((ofRows "Z" [] [[]]).project ["A"]).map (fun r => (r.scheme, r.contents.elems))
      = some ([], [[]]) := by
  decide

/-- C13, amended. For a relation `R` and a target scheme `s` none of whose names is a
column of `R`: when `R` has at least one column, `R.project(s)` returns a relation with
`R`'s name, an empty scheme and an empty content set; when `R` has no column,
`R.project(s)` returns `R` unchanged. -/
theorem project_none (R : Relation) (s : Tuple) (hs : ∀ x ∈ s, x ∉ R.scheme) :
    (R.scheme ≠ [] → ∃ P, R.project s = some P ∧ P.name = R.name ∧ P.scheme = [] ∧
      P.contents.elems = []) ∧
    (R.scheme = [] → R.project s = some R) := by
  have hc := cleanedScheme_of_disjoint R.scheme s hs
  have hp : R.project s = some (R.keepOnlyColumnsUntil 0) := by
    rw [project_eq, hc]
    rfl
  constructor
  · intro hne
    exact ⟨_, hp, keepOnlyColumnsUntil_name R 0, (keepOnlyColumnsUntil_zero R hne).1,
      (keepOnlyColumnsUntil_zero R hne).2⟩
  · intro he
    rw [hp, keepOnlyColumnsUntil_of_ge R 0 (by rw [he]; exact Nat.le_refl _)]

/-- C13, amended, at the relation `{(1,2),(1,3)}` over `[A,B]` and the targets `[X,Y]`
and `[]`. -/
theorem project_none_witness :
    (∃ P, (ofRows "R1" ["A", "B"] [["1", "2"], ["1", "3"]]).project ["X", "Y"] = some P ∧
      P.name = "R1" ∧ P.scheme = [] ∧ P.contents.elems = []) ∧
    (∃ P, (ofRows "R1" ["A", "B"] [["1", "2"], ["1", "3"]]).project [] = some P ∧
      P.name = "R1" ∧ P.scheme = [] ∧ P.contents.elems = []) :=
  ⟨(project_none (ofRows "R1" ["A", "B"] [["1", "2"], ["1", "3"]]) ["X", "Y"]
      (by decide)).1 (by decide),
    (project_none (ofRows "R1" ["A", "B"] [["1", "2"], ["1", "3"]]) []
      (by decide)).1 (by decide)⟩

end Relation

namespace Relation

/-! ## C16: `stringForTuple` -/

theorem intercalate_go_snoc (sep x : String) :
    ∀ (l : List String) (acc : String),
      String.intercalate.go acc sep (l ++ [x]) = String.intercalate.go acc sep l ++ sep ++ x
  | [], acc => by simp [String.intercalate.go]
  | y :: ys, acc => by
    simp only [List.cons_append, String.intercalate.go]
    exact intercalate_go_snoc sep x ys _

theorem intercalate_snoc (sep x : String) (l : List String) (h : l ≠ []) :
    sep.intercalate (l ++ [x]) = sep.intercalate l ++ sep ++ x := by
  cases l with
  | nil => exact absurd rfl h
  | cons y ys =>
    simp only [List.cons_append, String.intercalate]
    exact intercalate_go_snoc sep x ys y

theorem string_loop (R : Relation) (t : Tuple) (h : t.length = R.scheme.length) :
    ∀ k, k ≤ t.length →
      (List.range k).foldlM (stringStep R t) "" =
        some (", ".intercalate
            ((List.zipWith (fun col val => col ++ "=" ++ val) R.scheme t).take k) ++
          (if 0 < k ∧ k < t.length then ", " else ""))
  | 0, _ => by simp [String.intercalate]
  | k + 1, hk => by
    have hkt : k < t.length := by omega
    have hks : k < R.scheme.length := by omega
    have hitem : (List.zipWith (fun col val => col ++ "=" ++ val) R.scheme t)[k]? =
        some (R.scheme[k] ++ "=" ++ t[k]) := by
      rw [List.getElem?_zipWith, List.getElem?_eq_getElem hks, List.getElem?_eq_getElem hkt]
    have hpred : sizePred R.scheme.length = R.scheme.length - 1 := by
      unfold sizePred
      rw [if_pos (by omega)]
    rw [List.range_succ, List.foldlM_append, string_loop R t h k (by omega)]
    simp only [Option.bind_eq_bind, Option.some_bind, List.foldlM_cons, List.foldlM_nil,
      Option.pure_def, Option.bind_some]
    unfold stringStep
    rw [vecAt_of_lt R.scheme k hks, vecAt_of_lt t k hkt, hpred, List.take_succ, hitem]
    simp only [Option.bind_eq_bind, Option.some_bind, Option.pure_def, Option.toList_some]
    congr 1
    have hsep : (if k < R.scheme.length - 1 then (", " : String) else "") =
        (if 0 < k + 1 ∧ k + 1 < t.length then (", " : String) else "") := by
      by_cases hlast : k + 1 < t.length
      · rw [if_pos (show k < R.scheme.length - 1 by omega), if_pos ⟨by omega, hlast⟩]
      · rw [if_neg (show ¬ k < R.scheme.length - 1 by omega), if_neg (fun hc => hlast hc.2)]
    have hout : ∀ (a : String),
        (if k < R.scheme.length - 1 then a ++ ", " else a) =
          a ++ (if k < R.scheme.length - 1 then (", " : String) else "") := by
      intro a
      split
      · rfl
      · rw [String.append_empty]
    rw [hout, hsep]
    congr 1
    by_cases hk0 : k = 0
    · subst hk0
      simp [String.intercalate, String.intercalate.go]
    · have hne : (List.zipWith (fun col val => col ++ "=" ++ val) R.scheme t).take k ≠ [] := by
        intro he
        have hl := congrArg List.length he
        rw [List.length_take, List.length_zipWith] at hl
        simp only [List.length_nil] at hl
        omega
      rw [intercalate_snoc _ _ _ hne, if_pos ⟨by omega, hkt⟩]
      simp only [String.append_assoc]

/-- C16. `R.stringForTuple(t)` returns the empty string when `t` does not have as many
values as `R` has columns, and otherwise the strings `scheme[i] ++ "=" ++ t[i]`, in
order, joined with the separator `", "` and without a trailing separator. -/
theorem stringForTuple_spec (R : Relation) (t : Tuple) :
    R.stringForTuple t = some (if t.length ≠ R.getColumnCount then ""
      else ", ".intercalate (List.zipWith (fun col val => col ++ "=" ++ val) R.scheme t)) := by
  unfold stringForTuple
  by_cases h : t.length = R.getColumnCount
  · rw [if_neg (by simpa using h), if_neg (by simpa using h)]
    unfold getColumnCount at h
    rw [string_loop R t h t.length (le_refl _), if_neg (fun hc => Nat.lt_irrefl _ hc.2)]
    rw [String.append_empty, List.take_of_length_le (by rw [List.length_zipWith]; omega)]
  · rw [if_pos h, if_pos h]

end Relation

namespace Relation

/-! ## C11: projection round trip -/

theorem dedupFirst_of_nodup : ∀ l : List String, l.Nodup → dedupFirst l = l
  | [], _ => rfl
  | x :: xs, h => by
    have hx : x ∉ xs := (List.nodup_cons.mp h).1
    rw [dedupFirst_cons, dedupFirst_of_nodup xs (List.nodup_cons.mp h).2]
    congr 1
    rw [List.filter_eq_self]
    intro y hy
    have : y ≠ x := fun e => hx (e ▸ hy)
    simpa using this

theorem cleanedScheme_of_nodup_subset (scheme s : Tuple) (hnd : s.Nodup)
    (hsub : ∀ x ∈ s, x ∈ scheme) : cleanedScheme scheme s = s := by
  unfold cleanedScheme
  rw [dedupFirst_of_nodup s hnd, List.filter_eq_self]
  intro x hx
  simpa using hsub x hx

theorem project_of_nodup_subset (R : Relation) (hR : R.WellFormed) (hnd : R.scheme.Nodup)
    (s : Tuple) (hs : s.Nodup) (hsub : ∀ x ∈ s, x ∈ R.scheme) (hne : s ≠ []) :
    ∃ P, R.project s = some P ∧ P.name = R.name ∧ P.scheme = s ∧
      ∀ u, u ∈ P.contents.elems ↔ ∃ t ∈ R.contents.elems,
        u = s.map (fun x => (t[R.scheme.indexOf x]?).getD "") := by
  have hclean := cleanedScheme_of_nodup_subset R.scheme s hs hsub
  have hlen : s.length ≤ R.scheme.length := by
    rw [← hclean]
    exact length_cleanedScheme_le _ _
  obtain ⟨cur, p, hfold, hname, _, hplt, hsch, hcont, htake⟩ :=
    project_swaps R hR s hs hsub hlen
  have hwf : cur.WellFormed := by
    intro u hu
    obtain ⟨t, _, e⟩ := (hcont u).mp hu
    rw [e, hsch, List.length_map, List.length_map]
  have hpos : 0 < s.length := List.length_pos.mpr hne
  refine ⟨cur.keepOnlyColumnsUntil s.length, ?_, ?_, ?_, ?_⟩
  · rw [project_eq, hclean, hfold]
    rfl
  · rw [keepOnlyColumnsUntil_name, hname]
  · rw [keepOnlyColumnsUntil_scheme, htake]
  · intro u
    rw [mem_keepOnlyColumnsUntil cur hwf _ hpos u]
    rw [hsch] at htake
    constructor
    · rintro ⟨u', hu', e⟩
      obtain ⟨t, ht, e'⟩ := (hcont u').mp hu'
      refine ⟨t, ht, ?_⟩
      rw [e, e', map_take_index R.scheme hnd p hplt _ _ htake t]
    · rintro ⟨t, ht, e⟩
      refine ⟨p.map (fun i => (t[i]?).getD ""), (hcont _).mpr ⟨t, ht, rfl⟩, ?_⟩
      rw [e, map_take_index R.scheme hnd p hplt _ _ htake t]

theorem map_map_indexOf (s scheme t : Tuple) (hsub : ∀ x ∈ scheme, x ∈ s) :
    scheme.map (fun x =>
      ((s.map (fun y => (t[scheme.indexOf y]?).getD ""))[s.indexOf x]?).getD "") =
    scheme.map (fun x => (t[scheme.indexOf x]?).getD "") := by
  apply List.map_congr_left
  intro x hx
  have hlt : s.indexOf x < s.length := List.indexOf_lt_length.mpr (hsub x hx)
  rw [List.getElem?_map, List.getElem?_eq_getElem hlt, List.getElem_indexOf hlt]
  rfl

/-- C11. For a well-formed relation `R` and a scheme `s'` that is a permutation of `R`'s
scheme without repeated names, `R.project(s')` returns a relation `P`, `P.project` on
`R`'s scheme returns a relation with `R`'s name, `R`'s scheme in `R`'s order and `R`'s
content set, which is equal to `R` under `operator==`. -/
theorem project_round_trip (R : Relation) (hR : R.WellFormed) (s' : Tuple)
    (hperm : s'.Perm R.scheme) (hnd : s'.Nodup) :
    ∃ P, R.project s' = some P ∧ ∃ P', P.project R.scheme = some P' ∧
      P'.name = R.name ∧ P'.scheme = R.scheme ∧ P'.contents = R.contents ∧
      P'.eq R = true := by
  have hRnd : R.scheme.Nodup := hperm.nodup_iff.mp hnd
  by_cases hempty : R.scheme = []
  · have hs : s' = [] := by
      rw [hempty] at hperm
      exact List.Perm.eq_nil hperm
    have h1 : R.project s' = some R := by
      apply project_of_scheme_eq
      rw [hs, hempty]
      rfl
    have h2 : R.project R.scheme = some R := by
      apply project_of_scheme_eq
      rw [hempty]
      rfl
    exact ⟨R, h1, R, h2, rfl, rfl, rfl, by simp [eq]⟩
  · have hs : s' ≠ [] := by
      intro he
      rw [he] at hperm
      exact hempty (List.Perm.nil_eq hperm).symm
    obtain ⟨P, hP, hPn, hPs, hPc⟩ := project_of_nodup_subset R hR hRnd s' hnd
      (fun x hx => hperm.subset hx) hs
    have hPwf : P.WellFormed := by
      intro u hu
      obtain ⟨t, _, e⟩ := (hPc u).mp hu
      rw [e, hPs, List.length_map]
    obtain ⟨P', hP', hPn', hPs', hPc'⟩ := project_of_nodup_subset P hPwf (by rw [hPs]; exact hnd)
      R.scheme hRnd (fun x hx => by rw [hPs]; exact hperm.symm.subset hx) hempty
    have hcont : P'.contents = R.contents := by
      apply StdSet.ext
      intro w
      rw [hPc' w]
      constructor
      · rintro ⟨u, hu, e⟩
        obtain ⟨t, ht, e'⟩ := (hPc u).mp hu
        rw [e, e', hPs, map_map_indexOf s' R.scheme t (fun x hx => hperm.symm.subset hx),
          map_indexOf_self R.scheme t hRnd (hR t ht)]
        exact ht
      · intro hw
        refine ⟨s'.map (fun x => (w[R.scheme.indexOf x]?).getD ""),
          (hPc _).mpr ⟨w, hw, rfl⟩, ?_⟩
        rw [hPs, map_map_indexOf s' R.scheme w (fun x hx => hperm.symm.subset hx),
          map_indexOf_self R.scheme w hRnd (hR w hw)]
    refine ⟨P, hP, P', hP', by rw [hPn', hPn], hPs', hcont, ?_⟩
    simp [eq, hPn', hPn, hPs', hcont]

/-- C11 at the relation `{(1,2,3),(4,5,6)}` over `[A,B,C]` and the permutation
`[C,A,B]`. -/
theorem project_round_trip_witness :
    (ofRows "R" ["A", "B", "C"] [["1", "2", "3"], ["4", "5", "6"]]).WellFormed ∧
    ((ofRows "R" ["A", "B", "C"] [["1", "2", "3"], ["4", "5", "6"]]).project
      ["C", "A", "B"]).map (fun r => (r.scheme, r.contents.elems))
      = some (["C", "A", "B"], [["3", "1", "2"], ["6", "4", "5"]]) ∧
    ∃ P, (ofRows "R" ["A", "B", "C"] [["1", "2", "3"], ["4", "5", "6"]]).project
        ["C", "A", "B"] = some P ∧
      ∃ P', P.project (ofRows "R" ["A", "B", "C"] [["1", "2", "3"], ["4", "5", "6"]]).scheme
          = some P' ∧
        P'.name = (ofRows "R" ["A", "B", "C"] [["1", "2", "3"], ["4", "5", "6"]]).name ∧
        P'.scheme = (ofRows "R" ["A", "B", "C"] [["1", "2", "3"], ["4", "5", "6"]]).scheme ∧
        P'.contents
          = (ofRows "R" ["A", "B", "C"] [["1", "2", "3"], ["4", "5", "6"]]).contents ∧
        P'.eq (ofRows "R" ["A", "B", "C"] [["1", "2", "3"], ["4", "5", "6"]]) = true :=
  ⟨by decide, by decide,
    project_round_trip (ofRows "R" ["A", "B", "C"] [["1", "2", "3"], ["4", "5", "6"]])
      (by decide) ["C", "A", "B"] (by decide) (by decide)⟩

end Relation

namespace Relation

/-! ## Every operation returns a well-formed relation -/

theorem new_wellFormed (name : String) (scheme : Tuple) :
    (Relation.new name scheme).WellFormed := by
  intro t ht
  simp [new, StdSet.empty] at ht

theorem addTuple_wellFormed (R : Relation) (hR : R.WellFormed) (t : Tuple) :
    (R.addTuple t).2.WellFormed := by
  by_cases h : t.length = R.scheme.length
  · rw [addTuple_of_length R t h]
    intro u hu
    rcases (StdSet.mem_insert R.contents t u).mp hu with e | hu'
    · rw [e]
      exact h
    · exact hR u hu'
  · rw [addTuple_of_length_ne R t h]
    exact hR

theorem rename_returns (R : Relation) (hR : R.WellFormed) (n : Tuple) :
    ∃ r, R.rename n = some r ∧ r.WellFormed := by
  by_cases h : n.length = R.scheme.length
  · rw [rename_of_length_eq R n h]
    refine ⟨_, rfl, ?_⟩
    split
    · intro t ht
      show t.length = (mergedScheme R.scheme n).length
      rw [mergedScheme_length R.scheme n h]
      exact hR t ht
    · exact hR
  · exact ⟨R, by simp [rename, h], hR⟩

theorem renameCol_loop (oldCol newCol : String) (scheme : Tuple) :
    ∀ k, k ≤ scheme.length →
      ∃ v, (List.range k).foldlM (renameColLoop oldCol newCol) scheme = some v ∧
        v.length = scheme.length
  | 0, _ => ⟨scheme, by simp, rfl⟩
  | k + 1, hk => by
    obtain ⟨v, hv, hlen⟩ := renameCol_loop oldCol newCol scheme k (by omega)
    have hkv : k < v.length := by omega
    rw [List.range_succ, List.foldlM_append, hv]
    simp only [Option.bind_eq_bind, Option.some_bind, List.foldlM_cons, List.foldlM_nil,
      Option.pure_def, Option.bind_some]
    unfold renameColLoop
    rw [vecAt_of_lt v k hkv]
    simp only [Option.bind_eq_bind, Option.some_bind, Option.pure_def]
    split
    · rw [vecSetAt_of_lt v k newCol hkv]
      exact ⟨_, rfl, by simp [hlen]⟩
    · exact ⟨v, rfl, hlen⟩

theorem renameCol_returns (R : Relation) (hR : R.WellFormed) (oldCol newCol : String) :
    ∃ r, R.renameCol oldCol newCol = some r ∧ r.WellFormed := by
  obtain ⟨v, hv, _⟩ := renameCol_loop oldCol newCol R.scheme R.scheme.length (le_refl _)
  obtain ⟨r, hr, hwf⟩ := rename_returns R hR v
  refine ⟨r, ?_, hwf⟩
  unfold renameCol
  rw [hv]
  exact hr

theorem select_returns (R : Relation) (hR : R.WellFormed) (q : List (Nat × String)) :
    ∃ r, R.select q = some r ∧ r.WellFormed := by
  obtain ⟨r, hr, _, hs, hmem⟩ := select_loop R.scheme q R.contents.elems
    (Relation.new R.name R.scheme) rfl hR
  refine ⟨r, hr, ?_⟩
  intro t ht
  rw [hs]
  rcases (hmem t).mp ht with h | h
  · simp [new, StdSet.empty] at h
  · exact hR t h.1

theorem selectEquiv_returns (R : Relation) (hR : R.WellFormed) (Q : List (List Nat)) :
    ∃ r, R.selectEquiv Q = some r ∧ r.WellFormed := by
  obtain ⟨r, hr, _, hs, hsub, _⟩ := selectEquiv_general R hR Q
  refine ⟨r, hr, ?_⟩
  intro t ht
  rw [hs]
  exact hR t (hsub t ht)

theorem keepOnlyColumnsUntil_wellFormed (r : Relation) (hr : r.WellFormed) (col : Nat) :
    (r.keepOnlyColumnsUntil col).WellFormed := by
  by_cases h : col ≥ r.scheme.length
  · rw [keepOnlyColumnsUntil_of_ge r col h]
    exact hr
  · intro a ha
    rw [keepOnlyColumnsUntil_scheme, List.length_take]
    have hstr : ∀ b, b ∈ (r.contents.elems.foldl
        (fun (stripped : StdSet Tuple) t => stripped.insert (t.take col)) StdSet.empty).elems →
        b.length = min col r.scheme.length := by
      intro b hb
      rw [StdSet.mem_foldl_insert] at hb
      simp only [StdSet.empty, List.not_mem_nil, false_or] at hb
      obtain ⟨u, hu, e⟩ := hb
      rw [← e, List.length_take, hr u hu]
    unfold keepOnlyColumnsUntil at ha
    rw [getColumnCount, if_neg h] at ha
    simp only at ha
    split at ha
    · simp [StdSet.empty] at ha
    · exact hstr a ha

theorem project_returns (R : Relation) (hR : R.WellFormed) (s : Tuple) :
    ∃ P, R.project s = some P ∧ P.WellFormed := by
  obtain ⟨cur, p, hfold, _, _, _, hsch, hcont, _⟩ :=
    project_swaps R hR (cleanedScheme R.scheme s) (nodup_cleanedScheme _ _)
      (fun x hx => ((mem_cleanedScheme _ _ x).mp hx).2) (length_cleanedScheme_le _ _)
  have hwf : cur.WellFormed := by
    intro u hu
    obtain ⟨t, _, e⟩ := (hcont u).mp hu
    rw [e, hsch, List.length_map, List.length_map]
  refine ⟨cur.keepOnlyColumnsUntil (cleanedScheme R.scheme s).length, ?_,
    keepOnlyColumnsUntil_wellFormed cur hwf _⟩
  rw [project_eq, hfold]
  rfl

theorem joinedWith_returns (L R : Relation) (hL : L.WellFormed) (hR : R.WellFormed) :
    ∃ J, L.joinedWith R = some J ∧ J.WellFormed := by
  by_cases heq : L.name = R.name ∧ L.scheme = R.scheme ∧ L.contents.elems = R.contents.elems
  · exact ⟨L, joinedWith_of_eq L R heq, hL⟩
  · obtain ⟨J, hJ, _, hs, hmem⟩ := joinedWith_of_ne L R hL hR heq
    refine ⟨J, hJ, ?_⟩
    intro u hu
    obtain ⟨t1, _, t2, _, _, e⟩ := (hmem u).mp hu
    rw [e, hs, List.length_map]

theorem unionWith_wellFormed (A B : Relation) : (A.unionWith B).WellFormed := by
  have key : ∀ (l : List Tuple) (r : Relation), r.WellFormed →
      (l.foldl (fun r t => (r.addTuple t).2) r).WellFormed := by
    intro l
    induction l with
    | nil => intro r hr; exact hr
    | cons t l ih =>
      intro r hr
      rw [List.foldl_cons]
      exact ih _ (addTuple_wellFormed r hr t)
  unfold unionWith
  split
  · exact new_wellFormed _ _
  · exact key _ _ (key _ _ (new_wellFormed _ _))

theorem swapColumns_returns (R : Relation) (hR : R.WellFormed) (i j : Nat) :
    ∃ r, R.swapColumns i j = some r ∧ r.WellFormed := by
  by_cases hn : 1 ≤ R.scheme.length
  · obtain ⟨r, hr, _, hsch, hcont⟩ := swapColumns_of_lt R hR
      (min i (R.scheme.length - 1)) (min j (R.scheme.length - 1)) (by omega) (by omega)
    rw [← swapColumns_clamp R hn i j] at hr
    refine ⟨r, hr, ?_⟩
    intro u hu
    obtain ⟨t, ht, e⟩ := (hcont u).mp hu
    rw [e, hsch, listSwap_length, listSwap_length]
    exact hR t ht
  · have h0 : R.scheme.length = 0 := by omega
    refine ⟨R, ?_, hR⟩
    unfold swapColumns
    simp only [getColumnCount, h0, ge_iff_le, Nat.zero_le, if_true]

theorem stringForTuple_returns (R : Relation) (t : Tuple) :
    ∃ s, R.stringForTuple t = some s := by
  unfold stringForTuple
  by_cases h : t.length = R.getColumnCount
  · rw [if_neg (by simpa using h)]
    exact ⟨_, string_loop R t h t.length (le_refl _)⟩
  · rw [if_pos h]
    exact ⟨_, rfl⟩

/-! ## C17: the arity invariant -/

/-- C17. The predicate "every row has as many values as the scheme has columns" holds
of a freshly constructed relation, and for well-formed operands `R` and `S` each of
`addTuple` (whatever tuple is offered), `rename` by scheme, `rename` by column pair,
`select` by values, `select` by equivalence classes, `project`, `joinedWith` and
`unionWith` returns (or leaves) a relation for which it holds. -/
theorem arity_invariant (R S : Relation) (hR : R.WellFormed) (hS : S.WellFormed) :
    (∀ name scheme, (Relation.new name scheme).WellFormed) ∧
    (∀ t, (R.addTuple t).2.WellFormed) ∧
    (∀ n, ∃ r, R.rename n = some r ∧ r.WellFormed) ∧
    (∀ oldCol newCol, ∃ r, R.renameCol oldCol newCol = some r ∧ r.WellFormed) ∧
    (∀ q, ∃ r, R.select q = some r ∧ r.WellFormed) ∧
    (∀ Q, ∃ r, R.selectEquiv Q = some r ∧ r.WellFormed) ∧
    (∀ s, ∃ r, R.project s = some r ∧ r.WellFormed) ∧
    (∃ r, R.joinedWith S = some r ∧ r.WellFormed) ∧
    (R.unionWith S).WellFormed :=
  ⟨new_wellFormed, addTuple_wellFormed R hR, rename_returns R hR, renameCol_returns R hR,
    select_returns R hR, selectEquiv_returns R hR, project_returns R hR,
    joinedWith_returns R S hR hS, unionWith_wellFormed R S⟩

/-- C17 at the relations `{(1,2),(1,3)}` over `[A,B]` and `{(2,9),(5,9)}` over `[B,C]`. -/
theorem arity_invariant_witness :
    (ofRows "R1" ["A", "B"] [["1", "2"], ["1", "3"]]).WellFormed ∧
    (ofRows "R2" ["B", "C"] [["2", "9"], ["5", "9"]]).WellFormed ∧
    ((ofRows "R1" ["A", "B"] [["1", "2"], ["1", "3"]]).addTuple ["7"]).2.WellFormed ∧
    ∃ r, (ofRows "R1" ["A", "B"] [["1", "2"], ["1", "3"]]).joinedWith
      (ofRows "R2" ["B", "C"] [["2", "9"], ["5", "9"]]) = some r ∧ r.WellFormed :=
  ⟨by decide, by decide,
    (arity_invariant (ofRows "R1" ["A", "B"] [["1", "2"], ["1", "3"]])
      (ofRows "R2" ["B", "C"] [["2", "9"], ["5", "9"]]) (by decide) (by decide)).2.1 ["7"],
    (arity_invariant (ofRows "R1" ["A", "B"] [["1", "2"], ["1", "3"]])
      (ofRows "R2" ["B", "C"] [["2", "9"], ["5", "9"]]) (by decide)
      (by decide)).2.2.2.2.2.2.2.1⟩

/-! ## C18: no checked access fails -/

/-- C18. With every checked access `.at` modelled as an operation that can fail, for
well-formed relations `R` and `S` and all arguments each of `rename` (both forms),
`select` (both forms), `project`, `swapColumns` (any indices, also on a relation without
columns), `stringForTuple` and `joinedWith` returns a value; `keepOnlyColumnsUntil` and
`unionWith` perform no checked access and are total functions. -/
theorem no_failing_access (R S : Relation) (hR : R.WellFormed) (hS : S.WellFormed) :
    (∀ n, ∃ r, R.rename n = some r) ∧
    (∀ oldCol newCol, ∃ r, R.renameCol oldCol newCol = some r) ∧
    (∀ q, ∃ r, R.select q = some r) ∧
    (∀ Q, ∃ r, R.selectEquiv Q = some r) ∧
    (∀ s, ∃ r, R.project s = some r) ∧
    (∀ i j, ∃ r, R.swapColumns i j = some r) ∧
    (∀ col, ∃ r, R.keepOnlyColumnsUntil col = r) ∧
    (∀ t, ∃ s, R.stringForTuple t = some s) ∧
    (∃ r, R.joinedWith S = some r) ∧
    (∃ r, R.unionWith S = r) :=
  ⟨fun n => (rename_returns R hR n).imp (fun _ h => h.1),
    fun a b => (renameCol_returns R hR a b).imp (fun _ h => h.1),
    fun q => (select_returns R hR q).imp (fun _ h => h.1),
    fun Q => (selectEquiv_returns R hR Q).imp (fun _ h => h.1),
    fun s => (project_returns R hR s).imp (fun _ h => h.1),
    fun i j => (swapColumns_returns R hR i j).imp (fun _ h => h.1),
    fun _ => ⟨_, rfl⟩,
    fun t => stringForTuple_returns R t,
    (joinedWith_returns R S hR hS).imp (fun _ h => h.1),
    ⟨_, rfl⟩⟩

/-- C18 at the relation without columns holding the zero-length row, joined with
`{(2,9)}` over `[B,C]` and with its columns `0` and `99` swapped. -/
theorem no_failing_access_witness :
    (ofRows "Z" [] [[]]).WellFormed ∧ (ofRows "R2" ["B", "C"] [["2", "9"]]).WellFormed ∧
    (∃ r, (ofRows "Z" [] [[]]).swapColumns 0 99 = some r) ∧
    (∃ r, (ofRows "Z" [] [[]]).joinedWith (ofRows "R2" ["B", "C"] [["2", "9"]]) = some r) :=
  ⟨by decide, by decide,
    (no_failing_access (ofRows "Z" [] [[]]) (ofRows "R2" ["B", "C"] [["2", "9"]])
      (by decide) (by decide)).2.2.2.2.2.1 0 99,
    (no_failing_access (ofRows "Z" [] [[]]) (ofRows "R2" ["B", "C"] [["2", "9"]])
      (by decide) (by decide)).2.2.2.2.2.2.2.2.1⟩

end Relation

namespace Relation

/-! ## C19: where the values of a joined row come from -/

theorem joinedValue_cases (s1 s2 t1 t2 : Tuple) (col : String) :
    joinedValue s1 s2 t1 t2 col = colVal s1 t1 col ∨
    joinedValue s1 s2 t1 t2 col = colVal s2 t2 col ∨
    (colVal s1 t1 col = "" ∧ colVal s2 t2 col = "" ∧ joinedValue s1 s2 t1 t2 col = col) := by
  unfold joinedValue
  by_cases h1 : colVal s1 t1 col = ""
  · by_cases h2 : colVal s2 t2 col = ""
    · right
      right
      refine ⟨h1, h2, ?_⟩
      rw [if_neg (by simpa using h1), if_neg (by simpa using h2)]
    · right
      left
      rw [if_neg (by simpa using h1), if_pos h2]
  · left
    rw [if_pos h1]

/-- What the code does for C19: for well-formed relations `L` and `R` that are not equal,
every row of `L.joinedWith(R)` comes from rows `t1` of `L` and `t2` of `R`, and at each
result column it holds `t1`'s value there, or `t2`'s value there, or, when `joinedWith`
read the empty string from both, the name of the column. -/
theorem joinedWith_values (L R : Relation) (hL : L.WellFormed) (hR : R.WellFormed)
    (hne : L.eq R = false) :
    ∃ J, L.joinedWith R = some J ∧ ∀ u ∈ J.contents.elems,
      ∃ t1 ∈ L.contents.elems, ∃ t2 ∈ R.contents.elems, u.length = J.scheme.length ∧
        ∀ (k : Nat) (col : String), J.scheme[k]? = some col →
          u[k]? = some (colVal L.scheme t1 col) ∨ u[k]? = some (colVal R.scheme t2 col) ∨
          (colVal L.scheme t1 col = "" ∧ colVal R.scheme t2 col = "" ∧ u[k]? = some col) := by
  have hne' : ¬ (L.name = R.name ∧ L.scheme = R.scheme ∧
      L.contents.elems = R.contents.elems) := by
    intro h
    have : L.eq R = true := by simp [eq, h.1, h.2.1, h.2.2]
    rw [hne] at this
    exact Bool.false_ne_true this
  obtain ⟨J, hJ, _, hs, hmem⟩ := joinedWith_of_ne L R hL hR hne'
  refine ⟨J, hJ, ?_⟩
  intro u hu
  obtain ⟨t1, ht1, t2, ht2, _, e⟩ := (hmem u).mp hu
  refine ⟨t1, ht1, t2, ht2, by rw [e, hs, List.length_map], ?_⟩
  intro k col hk
  rw [hs] at hk
  have huk : u[k]? = some (joinedValue L.scheme R.scheme t1 t2 col) := by
    rw [e, List.getElem?_map, hk]
    rfl
  rw [huk]
  rcases joinedValue_cases L.scheme R.scheme t1 t2 col with h | h | ⟨h1, h2, h3⟩
  · exact Or.inl (by rw [h])
  · exact Or.inr (Or.inl (by rw [h]))
  · exact Or.inr (Or.inr ⟨h1, h2, by rw [h3]⟩)

/-- C19 fails on the code where a row holds the empty string: for the well-formed,
unequal relations `L` over `[A]` with the row `("")` and `R` over `[B]` with the row
`("x")`, the join has the single row `("A", "x")`. At the column `A`, which exists only
in `L`'s scheme, that row holds the column name `A` and not the empty string that the
only row of `L` holds there. -/
theorem joinedWith_empty_value :
    (ofRows "L" ["A"] [[""]]).WellFormed ∧ (ofRows "R" ["B"] [["x"]]).WellFormed ∧
    (ofRows "L" ["A"] [[""]]).eq (ofRows "R" ["B"] [["x"]]) = false ∧
    (ofRows "L" ["A"] [[""]]).contents.elems = [[""]] ∧
    ((ofRows "L" ["A"] [[""]]).joinedWith (ofRows "R" ["B"] [["x"]])).map
      (fun r => (r.scheme, r.contents.elems)) = some (["A", "B"], [["A", "x"]]) := by
  decide

end Relation

end LexerV1
